import Mathlib

/-!
Verification of the stratified, diversity-aware sampling engine of the
`script_library` repository (files `query_nomad/script.py` and
`query_nomad/script_distinct_authors.py`).

The Python scripts are embedded shallowly:

* `RepoEntry` is the dataclass of both scripts (the `script.py` variant has no
  `main_author` field; we use the richer record of `script_distinct_authors.py`
  for both, `stratified_sample` never consults `main_author`).
* Python's `random.Random` is modelled by an abstract deterministic stream of
  states (`Nat`), advanced by a linear congruential step.  `rng.shuffle`
  mutating its argument in place is modelled by the pure `shuffle` returning the
  permuted list together with the advanced state; `rng.sample(l, k)` (a draw of
  `k` distinct positions) is modelled as the first `k` elements of a shuffle.
  The exact Mersenne-Twister stream is out of scope; every theorem below holds
  for the whole family of states.
* Python `dict`s preserve insertion order, so `buckets` is an association list
  and `buckets.setdefault(key, []).append(e)` appends into the association list.
* `float` products in `round(frac * target_size)` are modelled by exact
  arithmetic on the fraction `len(bucket) * target / n_total` with Python's
  round-half-to-even (`pyRoundFrac`).
* Each `while` loop of the allocation fix-up is translated to a structurally
  terminating recursion: the cyclic surplus-removal loop runs in passes over
  `systems_sorted` (`removeRound` is one pass of `len(systems_sorted)` loop
  iterations); `removeSurplusGo` iterates passes with fuel `surplus`, enough
  because every pass that finds a quota above one removes at least one unit,
  and both exit conditions of the `while` are checked between passes exactly
  as the `while` checks them between iterations.
* exceptions (`ValueError`) become `Except SampleError`; the `print`-ed
  warning about an oversized target becomes the `warned` flag of the result.
-/

namespace ScriptLib

open scoped List

/-- The dataclass `RepoEntry` of `query_nomad/script_distinct_authors.py`
(`script.py` uses the same record minus `main_author`). -/
structure RepoEntry where
  entry_id : String
  upload_id : Option String
  mainfile : Option String
  main_author : Option String
  system : String
  structural_type : Option String
deriving DecidableEq, Repr

/-- Errors raised by the sampling functions: `ValueError("target_size must be
positive")` and `ValueError("no entries available for sampling")`. -/
inductive SampleError where
  | invalidTarget
  | emptyPopulation
deriving DecidableEq, Repr

/-- One step of the abstract deterministic random stream (a linear
congruential generator standing in for the Mersenne Twister). -/
def rngNext (s : Nat) : Nat := (s * 1103515245 + 12345) % 2147483648

/-- Draw a number below `n` (for `n > 0`) from the stream's higher-order bits
and advance the stream. -/
def randBelow (s n : Nat) : Nat × Nat :=
  let s' := rngNext s
  (s' / 65536 % n, s')

/-- Model of `rng.shuffle`, fuelled: repeatedly draw a position and move that
element to the front.  One unit of fuel is spent per drawn element; the list
shrinks by one each step, so fuel `l.length` (as `shuffle` passes) always
suffices, and on fuel exhaustion the remaining list is returned unchanged. -/
def shuffleGo : Nat → Nat → List α → List α × Nat
  | 0, s, l => (l, s)
  | _ + 1, s, [] => ([], s)
  | fuel + 1, s, x :: xs =>
    let n := (x :: xs).length
    let p0 := randBelow s n
    let y := (x :: xs).get ⟨p0.1, Nat.mod_lt _ (Nat.succ_pos _)⟩
    let rest := (x :: xs).eraseIdx p0.1
    let p := shuffleGo fuel p0.2 rest
    (y :: p.1, p.2)

/-- Model of `rng.shuffle`: returns the permuted list and the advanced stream
state. -/
def shuffle (s : Nat) (l : List α) : List α × Nat := shuffleGo l.length s l

/-- Model of `rng.sample(l, k)`: `k` distinct positions drawn without
replacement, i.e. the first `k` elements of a shuffle.  All call sites of the
scripts have `k ≤ l.length` (Python's `sample` raises otherwise). -/
def sample (s : Nat) (l : List α) (k : Nat) : List α × Nat :=
  let p := shuffle s l
  (p.1.take k, p.2)

/-- `buckets.setdefault(e.system, []).append(e)`: append `e` to its bucket in
the insertion-ordered association list, creating the bucket at the end if the
label is new. -/
def addToBucket : List (String × List RepoEntry) → RepoEntry → List (String × List RepoEntry)
  | [], e => [(e.system, [e])]
  | (k, b) :: rest, e =>
    if k = e.system then (k, b ++ [e]) :: rest
    else (k, b) :: addToBucket rest e

/-- The `buckets` dict of both scripts, built by one pass over `entries`. -/
def buildBuckets (entries : List RepoEntry) : List (String × List RepoEntry) :=
  entries.foldl addToBucket []

/-- Python's `round(a / b)` for `b > 0`, on the exact fraction:
round half to even. -/
def pyRoundFrac (a b : Nat) : Nat :=
  let q := a / b
  let r := a % b
  if 2 * r < b then q
  else if b < 2 * r then q + 1
  else if q % 2 = 0 then q else q + 1

/-- The initial proportional allocation: `k = int(round(frac * target_size))`
bumped to `1` for every non-empty bucket (`if k < 1 and len(bucket) > 0`). -/
def initialAlloc (buckets : List (String × List RepoEntry)) (nTotal target : Nat) :
    List (String × Nat) :=
  buckets.map fun p =>
    (p.1,
      let k := pyRoundFrac (p.2.length * target) nTotal
      if k < 1 ∧ 0 < p.2.length then 1 else k)

/-- Stable insertion (descending bucket size) used to model Python's stable
`sorted(..., key=lambda s: len(buckets[s]), reverse=True)`: `x` is placed
before the first element that is not strictly larger, so equal-sized strata
keep their original relative order. -/
def insertBySizeDesc (x : String × List RepoEntry) :
    List (String × List RepoEntry) → List (String × List RepoEntry)
  | [] => [x]
  | y :: ys =>
    if x.2.length < y.2.length then y :: insertBySizeDesc x ys
    else x :: y :: ys

/-- Stable sort of the buckets by descending bucket size. -/
def sortBySizeDesc : List (String × List RepoEntry) → List (String × List RepoEntry)
  | [] => []
  | x :: xs => insertBySizeDesc x (sortBySizeDesc xs)

/-- `systems_sorted` of both scripts: bucket labels by descending bucket size,
ties in Python's stable order (= bucket insertion order). -/
def systemsSorted (buckets : List (String × List RepoEntry)) : List String :=
  (sortBySizeDesc buckets).map (·.1)

/-- `alloc[s]` (`alloc.get(s, 0)` reads of the scripts always hit a key that is
present; `0` is the `dict.get` default). -/
def lookupAlloc (alloc : List (String × Nat)) (s : String) : Nat :=
  match alloc.find? (fun p => p.1 == s) with
  | some p => p.2
  | none => 0

/-- `alloc[s] = v` (keys are pairwise distinct, so at most one pair changes). -/
def setAlloc (alloc : List (String × Nat)) (s : String) (v : Nat) : List (String × Nat) :=
  alloc.map fun p => if p.1 == s then (p.1, v) else p

/-- `sum(alloc.values())`. -/
def sumAlloc (alloc : List (String × Nat)) : Nat :=
  (alloc.map (·.2)).sum

/-- The `current < target_size` fix-up loop: add one unit at a time to
`systems_sorted[idx % len]`, `remaining` times. -/
def addRemaining (order : List String) : List (String × Nat) → Nat → Nat → List (String × Nat)
  | alloc, 0, _ => alloc
  | alloc, r + 1, idx =>
    let s := order.getD (idx % order.length) ""
    addRemaining order (setAlloc alloc s (lookupAlloc alloc s + 1)) r (idx + 1)

/-- One pass of `len(order)` iterations of the surplus-removal `while` loop:
each label is visited once; a unit is removed when surplus is left and the
quota is above one (the loop guard `surplus > 0` is rechecked before every
iteration, the guard `any(v > 1)` only matters between passes because within a
pass a skipped label is simply a no-op). -/
def removeRound : List String → List (String × Nat) → Nat → List (String × Nat) × Nat
  | [], alloc, surplus => (alloc, surplus)
  | s :: rest, alloc, surplus =>
    if 0 < surplus ∧ 1 < lookupAlloc alloc s then
      removeRound rest (setAlloc alloc s (lookupAlloc alloc s - 1)) (surplus - 1)
    else removeRound rest alloc surplus

/-- The `current > target_size` fix-up loop
(`while surplus > 0 and any(v > 1 for v in alloc.values())`), run in passes.
Fuel `surplus` passes suffice: every pass taken under the two guards removes at
least one unit of surplus. -/
def removeSurplusGo : Nat → List String → List (String × Nat) → Nat → List (String × Nat)
  | 0, _, alloc, _ => alloc
  | fuel + 1, order, alloc, surplus =>
    if surplus = 0 then alloc
    else if alloc.all (fun p => p.2 ≤ 1) then alloc
    else
      let p := removeRound order alloc surplus
      removeSurplusGo fuel order p.1 p.2

/-- `# Adjust allocation to match target_size exactly` — both fix-up loops. -/
def adjustAlloc (order : List String) (alloc : List (String × Nat)) (target : Nat) :
    List (String × Nat) :=
  let current := sumAlloc alloc
  if current < target then addRemaining order alloc (target - current) 0
  else if target < current then removeSurplusGo (current - target) order alloc (current - target)
  else alloc

/-- `script.py`'s drawing loop: `for system, bucket in buckets.items()` (bucket
insertion order!), `k = min(alloc.get(system, 0), len(bucket))`, skip when
`k <= 0`, else `selected.extend(rng.sample(bucket, k))`. -/
def selectPlain : List (String × List RepoEntry) → List (String × Nat) → Nat →
    List RepoEntry × Nat
  | [], _, rng => ([], rng)
  | (s, bucket) :: rest, alloc, rng =>
    let k := min (lookupAlloc alloc s) bucket.length
    if k = 0 then selectPlain rest alloc rng
    else
      let p := sample rng bucket k
      let q := selectPlain rest alloc p.2
      (p.1 ++ q.1, q.2)

/-- The shared global trim / top-up of both scripts (`# Fix small mismatches by
global trim / top-up`). -/
def reconcile (entries selected : List RepoEntry) (target : Nat) (rng : Nat) :
    List RepoEntry × Nat :=
  if target < selected.length then sample rng selected target
  else if selected.length < target then
    let ids := selected.map (·.entry_id)
    let pool := entries.filter fun e => !(ids.contains e.entry_id)
    let kextra := min (target - selected.length) pool.length
    if 0 < kextra then
      let p := sample rng pool kextra
      (selected ++ p.1, p.2)
    else (selected, rng)
  else (selected, rng)

/-- Result of `stratified_sample`: the sample plus the `[warn]` notice flag
(the script prints the warning; we record that it was emitted). -/
structure SampleResult where
  sample : List RepoEntry
  warned : Bool
deriving DecidableEq, Repr

/-- The body of `stratified_sample` after the validity checks and the clamp
(`target` is the already clamped target). -/
def stratifiedBody (entries : List RepoEntry) (target seed : Nat) : List RepoEntry :=
  let buckets := buildBuckets entries
  let alloc0 := initialAlloc buckets entries.length target
  let order := systemsSorted buckets
  let alloc := adjustAlloc order alloc0 target
  let p := selectPlain buckets alloc seed
  (reconcile entries p.1 target p.2).1

/-- `stratified_sample(entries, target_size, rng)` of `query_nomad/script.py`. -/
def stratified_sample (entries : List RepoEntry) (target_size : Int) (seed : Nat) :
    Except SampleError SampleResult :=
  if target_size ≤ 0 then .error .invalidTarget
  else if entries.length = 0 then .error .emptyPopulation
  else
    .ok ⟨stratifiedBody entries (min target_size.toNat entries.length) seed,
      decide ((entries.length : Int) < target_size)⟩

/-- First pass of the per-system selection of `script_distinct_authors.py`:
prefer entries whose `main_author` was not used anywhere in the run yet.
`sel` is `system_selected` so far, `used` is the global `used_authors` set
(modelled as a list consulted only through membership). -/
def firstPassGo (need : Nat) : List RepoEntry → List RepoEntry → List String →
    List RepoEntry × List String
  | [], sel, used => (sel, used)
  | e :: rest, sel, used =>
    if need ≤ sel.length then (sel, used)
    else
      match e.main_author with
      | none => firstPassGo need rest sel used
      | some a =>
        if a ∈ used then firstPassGo need rest sel used
        else firstPassGo need rest (sel ++ [e]) (a :: used)

/-- Second pass: fill remaining slots ignoring author overlap
(`if e in system_selected: continue`). -/
def secondPassGo (need : Nat) : List RepoEntry → List RepoEntry → List RepoEntry
  | [], sel => sel
  | e :: rest, sel =>
    if need ≤ sel.length then sel
    else if e ∈ sel then secondPassGo need rest sel
    else secondPassGo need rest (sel ++ [e])

/-- Running state of the per-system selection loop of
`script_distinct_authors.py`: the concatenated selections, the concatenated
first-pass (diversity-first) selections, the global `used_authors`, and the
random stream. -/
structure DiverseState where
  selected : List RepoEntry
  phase1 : List RepoEntry
  used : List String
  rng : Nat
deriving Repr

/-- `buckets[system]` lookup. -/
def buildLookup (buckets : List (String × List RepoEntry)) (s : String) : List RepoEntry :=
  match buckets.find? (fun p => p.1 == s) with
  | some p => p.2
  | none => []

/-- `for system in systems_sorted:` of `script_distinct_authors.py` — shuffle a
copy of the bucket, run both passes, extend the global selection. -/
def selectDiverse (buckets : List (String × List RepoEntry)) (alloc : List (String × Nat)) :
    List String → DiverseState → DiverseState
  | [], st => st
  | s :: rest, st =>
    let bucket := buildLookup buckets s
    let need := lookupAlloc alloc s
    if need = 0 ∨ bucket.isEmpty then selectDiverse buckets alloc rest st
    else
      let sh := shuffle st.rng bucket
      let fp := firstPassGo need sh.1 [] st.used
      let sel := secondPassGo need sh.1 fp.1
      selectDiverse buckets alloc rest ⟨st.selected ++ sel, st.phase1 ++ fp.1, fp.2, sh.2⟩

/-- The same loop with the diversity-first phase removed: pure random
per-stratum selection (the comparison algorithm of the spec's monotonicity
property).  It consumes the random stream exactly as `selectDiverse` does. -/
def selectPure (buckets : List (String × List RepoEntry)) (alloc : List (String × Nat)) :
    List String → List RepoEntry × Nat → List RepoEntry × Nat
  | [], st => st
  | s :: rest, st =>
    let bucket := buildLookup buckets s
    let need := lookupAlloc alloc s
    if need = 0 ∨ bucket.isEmpty then selectPure buckets alloc rest st
    else
      let sh := shuffle st.2 bucket
      let sel := secondPassGo need sh.1 []
      selectPure buckets alloc rest (st.1 ++ sel, sh.2)

/-- Result of `main_author_diverse_stratified_sample`: the sample, the
first-pass (diversity-preferred) selections, and the warning flag. -/
structure DiverseResult where
  sample : List RepoEntry
  phase1 : List RepoEntry
  warned : Bool
deriving DecidableEq, Repr

/-- The body of `main_author_diverse_stratified_sample` after the validity
checks and the clamp: the reconciled sample and the first-pass selections. -/
def diverseBody (entries : List RepoEntry) (target seed : Nat) :
    List RepoEntry × List RepoEntry :=
  let buckets := buildBuckets entries
  let alloc0 := initialAlloc buckets entries.length target
  let order := systemsSorted buckets
  let alloc := adjustAlloc order alloc0 target
  let st := selectDiverse buckets alloc order ⟨[], [], [], seed⟩
  ((reconcile entries st.selected target st.rng).1, st.phase1)

/-- `main_author_diverse_stratified_sample(entries, target_size, rng)` of
`query_nomad/script_distinct_authors.py`. -/
def main_author_diverse_stratified_sample (entries : List RepoEntry) (target_size : Int)
    (seed : Nat) : Except SampleError DiverseResult :=
  if target_size ≤ 0 then .error .invalidTarget
  else if entries.length = 0 then .error .emptyPopulation
  else
    .ok ⟨(diverseBody entries (min target_size.toNat entries.length) seed).1,
      (diverseBody entries (min target_size.toNat entries.length) seed).2,
      decide ((entries.length : Int) < target_size)⟩

/-- The corresponding body with the diversity-first phase removed. -/
def pureBody (entries : List RepoEntry) (target seed : Nat) : List RepoEntry :=
  let buckets := buildBuckets entries
  let alloc0 := initialAlloc buckets entries.length target
  let order := systemsSorted buckets
  let alloc := adjustAlloc order alloc0 target
  let st := selectPure buckets alloc order ([], seed)
  (reconcile entries st.1 target st.2).1

/-- `main_author_diverse_stratified_sample` with the diversity-first phase
removed (pure random per-stratum selection) — the comparison algorithm named
by the spec's diversity-monotonicity property. -/
def pure_random_stratified_sample (entries : List RepoEntry) (target_size : Int)
    (seed : Nat) : Except SampleError DiverseResult :=
  if target_size ≤ 0 then .error .invalidTarget
  else if entries.length = 0 then .error .emptyPopulation
  else
    .ok ⟨pureBody entries (min target_size.toNat entries.length) seed, [],
      decide ((entries.length : Int) < target_size)⟩

/-- The distinct non-absent `main_author` values of a list of entries. -/
def authorsOf (l : List RepoEntry) : Finset String :=
  (l.filterMap RepoEntry.main_author).toFinset

/-- The per-stratum selections of `main_author_diverse_stratified_sample`
before the global trim / top-up (the value of `selected` at the end of the
`for system in systems_sorted` loop), for valid inputs. -/
def diverseSelection (entries : List RepoEntry) (target_size : Int) (seed : Nat) :
    List RepoEntry :=
  let nTotal := entries.length
  let target := min target_size.toNat nTotal
  let buckets := buildBuckets entries
  let alloc0 := initialAlloc buckets nTotal target
  let order := systemsSorted buckets
  let alloc := adjustAlloc order alloc0 target
  (selectDiverse buckets alloc order ⟨[], [], [], seed⟩).selected

/-- The same stage of `pure_random_stratified_sample`. -/
def pureSelection (entries : List RepoEntry) (target_size : Int) (seed : Nat) :
    List RepoEntry :=
  let nTotal := entries.length
  let target := min target_size.toNat nTotal
  let buckets := buildBuckets entries
  let alloc0 := initialAlloc buckets nTotal target
  let order := systemsSorted buckets
  let alloc := adjustAlloc order alloc0 target
  (selectPure buckets alloc order ([], seed)).1

/-- The concatenation of all bucket contents. -/
def bucketsJoin (bs : List (String × List RepoEntry)) : List RepoEntry :=
  (bs.map (·.2)).flatten

/-- Lexical (code-point) comparison of character lists, for the spec-side
"label lexical order". -/
def charListLt : List Char → List Char → Bool
  | [], [] => false
  | [], _ :: _ => true
  | _ :: _, [] => false
  | c :: cs, d :: ds =>
    if c.toNat < d.toNat then true
    else if d.toNat < c.toNat then false
    else charListLt cs ds

/-- Lexical comparison of strings. -/
def strLt (a b : String) : Bool := charListLt a.data b.data

/-- Modelled from the spec: the stratum processing order the design of §4.5
mandates — "descending size, ties broken by stratum label lexical order".
Comparison definition for the ordering claim; the scripts' actual order is
`systemsSorted`. -/
def specInsertOrder (x : String × List RepoEntry) :
    List (String × List RepoEntry) → List (String × List RepoEntry)
  | [] => [x]
  | y :: ys =>
    if y.2.length > x.2.length ∨ (y.2.length = x.2.length ∧ strLt y.1 x.1 = true) then
      y :: specInsertOrder x ys
    else x :: y :: ys

/-- Modelled from the spec: full sort by (size descending, label ascending). -/
def specSortOrder : List (String × List RepoEntry) → List (String × List RepoEntry)
  | [] => []
  | x :: xs => specInsertOrder x (specSortOrder xs)

/-- Modelled from the spec: the mandated stratum label order. -/
def specOrderedSystems (buckets : List (String × List RepoEntry)) : List String :=
  (specSortOrder buckets).map (·.1)

/-- The stratum order `script.py`'s drawing loop actually iterates:
`for system, bucket in buckets.items()` — bucket insertion order. -/
def plainSelectionOrder (buckets : List (String × List RepoEntry)) : List String :=
  buckets.map (·.1)

/-- A raw hit of `/entries/query` as far as the record loop consumes it:
`entry_id` is the only field read with `d[...]` (raising `KeyError` when
missing); all other fields are read with `.get`.  `main_author` is taken
already normalized to an optional string (the string-vs-object heuristic is
independent of the missing-identity-field behaviour this models). -/
structure RawHit where
  entry_id : Option String
  upload_id : Option String
  mainfile : Option String
  main_author : Option String
  structural_type : Option String
deriving DecidableEq, Repr

/-- `RepoEntry.from_api_result(d)`: `KeyError` (here `none`) exactly when
`entry_id` is missing; `system` falls back to `"unknown"` when
`structural_type` is missing or empty (Python falsy). -/
def from_api_result (d : RawHit) : Option RepoEntry :=
  match d.entry_id with
  | none => none
  | some eid =>
    some
      { entry_id := eid
        upload_id := d.upload_id
        mainfile := d.mainfile
        main_author := d.main_author
        system :=
          match d.structural_type with
          | none => "unknown"
          | some s => if s = "" then "unknown" else s
        structural_type := d.structural_type }

/-- The per-page record loop of `fetch_all_orca_entries` / `fetch_all_entries`:
`try: ... from_api_result(d) ... except KeyError: continue`. -/
def processHits (hits : List RawHit) : List RepoEntry :=
  hits.filterMap from_api_result

/-- The number of hits of a page the loop skips (missing `entry_id`). -/
def skippedCount (hits : List RawHit) : Nat :=
  (hits.filter (fun d => d.entry_id.isNone)).length

/-- The numbers the per-page progress line reports
(`fetched {len(hits)} entries, total so far {len(all_entries)}`), given the
running total of parsed entries before the page. -/
def pageReport (hits : List RawHit) (total : Nat) : Nat × Nat :=
  (hits.length, total + (processHits hits).length)

/-! ### Concrete populations used by counterexamples and witnesses -/

/-- Shorthand entry constructor for concrete populations. -/
def mkE (id sys : String) (au : Option String) : RepoEntry :=
  ⟨id, none, none, au, sys, some sys⟩

/-- Three singleton strata. -/
def exThreeSingl : List RepoEntry := [mkE "1" "a" none, mkE "2" "b" none, mkE "3" "c" none]

/-- Two equal-sized strata whose labels are in reverse lexical order. -/
def exTie : List RepoEntry := [mkE "1" "b" none, mkE "2" "a" none]

/-- A small stratum inserted before a larger one. -/
def exSmallFirst : List RepoEntry := [mkE "1" "s1" none, mkE "2" "s2" none, mkE "3" "s2" none]

/-- Three entries in a single stratum sharing one author. -/
def exOneAuthor : List RepoEntry :=
  [mkE "1" "m" (some "A"), mkE "2" "m" (some "A"), mkE "3" "m" (some "A")]

/-- Three strata of sizes 3/2/1 with author duplicates within and across
strata. -/
def exDiverse : List RepoEntry :=
  [mkE "p1" "S1" (some "x"), mkE "p2" "S1" (some "x"), mkE "p3" "S1" (some "x"),
   mkE "q" "S2" (some "x"), mkE "r" "S2" (some "y"),
   mkE "s" "S3" (some "y")]

/-- A page with one malformed hit (missing `entry_id`) between two good ones. -/
def exPage : List RawHit :=
  [⟨some "g1", none, none, none, some "bulk"⟩,
   ⟨none, some "u", some "f", some "a", some "bulk"⟩,
   ⟨some "g2", none, none, none, none⟩]

/-! ### Basic facts about the random-stream primitives -/

/-- Moving the element at index `i` to the front is a permutation. -/
theorem perm_get_cons_eraseIdx : ∀ (l : List α) (i : Fin l.length),
    (l.get i :: l.eraseIdx i.1).Perm l
  | _ :: _, ⟨0, _⟩ => by simp
  | a :: l, ⟨n + 1, h⟩ => by
    simpa using
      (List.Perm.swap a (l.get ⟨n, Nat.lt_of_succ_lt_succ h⟩) (l.eraseIdx n)).trans
        ((perm_get_cons_eraseIdx l ⟨n, Nat.lt_of_succ_lt_succ h⟩).cons a)

/-- `shuffleGo` permutes its input at every fuel level. -/
theorem shuffleGo_perm : ∀ (fuel s : Nat) (l : List α), ((shuffleGo fuel s l).1).Perm l := by
  intro fuel
  induction fuel with
  | zero => intro s l; simp [shuffleGo]
  | succ fuel ih =>
    intro s l
    match l with
    | [] => simp [shuffleGo]
    | x :: xs =>
      have hm : (randBelow s (x :: xs).length).1 < (x :: xs).length :=
        Nat.mod_lt _ (Nat.succ_pos _)
      exact ((ih _ _).cons _).trans (perm_get_cons_eraseIdx (x :: xs) ⟨_, hm⟩)

/-- `shuffle` permutes its input. -/
theorem shuffle_perm (s : Nat) (l : List α) : ((shuffle s l).1).Perm l :=
  shuffleGo_perm l.length s l

theorem shuffle_length (s : Nat) (l : List α) : ((shuffle s l).1).length = l.length :=
  (shuffle_perm s l).length_eq

/-- A drawn sample is a sub-permutation of the pool. -/
theorem sample_subperm (s : Nat) (l : List α) (k : Nat) : ((sample s l k).1) <+~ l :=
  ((List.take_sublist k _).subperm).trans (shuffle_perm s l).subperm

theorem sample_length (s : Nat) (l : List α) (k : Nat) :
    ((sample s l k).1).length = min k l.length := by
  simp [sample, shuffle_length]

/-- Sub-permutations of duplicate-free lists are duplicate-free. -/
theorem subperm_nodup [DecidableEq α] {l₁ l₂ : List α} (h : l₁ <+~ l₂) (h₂ : l₂.Nodup) :
    l₁.Nodup := by
  rw [List.nodup_iff_count_le_one] at h₂ ⊢
  exact fun a => le_trans (h.count_le a) (h₂ a)

theorem subperm_map (f : α → β) {l₁ l₂ : List α} (h : l₁ <+~ l₂) :
    l₁.map f <+~ l₂.map f := by
  obtain ⟨l, hperm, hsub⟩ := h
  exact ⟨l.map f, hperm.map f, hsub.map f⟩

/-! ### Facts about the buckets association list -/

theorem bucketsJoin_addToBucket (bs : List (String × List RepoEntry)) (e : RepoEntry) :
    (bucketsJoin (addToBucket bs e)).Perm (bucketsJoin bs ++ [e]) := by
  induction bs with
  | nil => simp [addToBucket, bucketsJoin]
  | cons p rest ih =>
    obtain ⟨k, b⟩ := p
    by_cases h : k = e.system
    · simp only [addToBucket, if_pos h, bucketsJoin, List.map_cons, List.flatten_cons,
        List.append_assoc, List.singleton_append]
      exact ((List.perm_append_singleton e _).symm).append_left b
    · simp only [addToBucket, if_neg h, bucketsJoin, List.map_cons, List.flatten_cons,
        List.append_assoc]
      simp only [bucketsJoin] at ih
      exact ih.append_left b

theorem buildBuckets_join_perm (entries : List RepoEntry) :
    (bucketsJoin (buildBuckets entries)).Perm entries := by
  suffices h : ∀ (acc : List (String × List RepoEntry)),
      (bucketsJoin (entries.foldl addToBucket acc)).Perm (bucketsJoin acc ++ entries) by
    simpa [buildBuckets, bucketsJoin] using h []
  induction entries with
  | nil => intro acc; simp
  | cons e rest ih =>
    intro acc
    have e3 : (bucketsJoin acc ++ [e]) ++ rest = bucketsJoin acc ++ (e :: rest) := by simp
    show (bucketsJoin (rest.foldl addToBucket (addToBucket acc e))).Perm
      (bucketsJoin acc ++ (e :: rest))
    rw [← e3]
    exact (ih (addToBucket acc e)).trans ((bucketsJoin_addToBucket acc e).append_right rest)

theorem addToBucket_keys_mem (bs : List (String × List RepoEntry)) (e : RepoEntry) (x : String) :
    x ∈ (addToBucket bs e).map (·.1) ↔ x ∈ bs.map (·.1) ∨ x = e.system := by
  induction bs with
  | nil => simp [addToBucket]
  | cons p rest ih =>
    obtain ⟨k, b⟩ := p
    by_cases h : k = e.system
    · simp only [addToBucket, if_pos h, List.map_cons, List.mem_cons]
      rw [← h]
      tauto
    · simp only [addToBucket, if_neg h, List.map_cons, List.mem_cons, ih]
      tauto

theorem addToBucket_keys_nodup (bs : List (String × List RepoEntry)) (e : RepoEntry)
    (h : (bs.map (·.1)).Nodup) : ((addToBucket bs e).map (·.1)).Nodup := by
  induction bs with
  | nil => simp [addToBucket]
  | cons p rest ih =>
    obtain ⟨k, b⟩ := p
    simp only [List.map_cons, List.nodup_cons] at h
    by_cases hp : k = e.system
    · simp only [addToBucket, if_pos hp, List.map_cons, List.nodup_cons]
      exact h
    · simp only [addToBucket, if_neg hp, List.map_cons, List.nodup_cons]
      refine ⟨fun hmem => ?_, ih h.2⟩
      rw [addToBucket_keys_mem] at hmem
      rcases hmem with hmem | hmem
      · exact h.1 hmem
      · exact hp hmem

theorem buildBuckets_keys_nodup (entries : List RepoEntry) :
    ((buildBuckets entries).map (·.1)).Nodup := by
  suffices h : ∀ (acc : List (String × List RepoEntry)), ((acc.map (·.1)).Nodup) →
      (((entries.foldl addToBucket acc).map (·.1)).Nodup) by
    exact h [] (by simp)
  induction entries with
  | nil => intro acc h; simpa using h
  | cons e rest ih =>
    intro acc h
    exact ih _ (addToBucket_keys_nodup acc e h)

theorem addToBucket_vals_nonempty (bs : List (String × List RepoEntry)) (e : RepoEntry)
    (h : ∀ p ∈ bs, p.2 ≠ []) : ∀ p ∈ addToBucket bs e, p.2 ≠ ([] : List RepoEntry) := by
  induction bs with
  | nil => simp [addToBucket]
  | cons q rest ih =>
    intro p hp
    obtain ⟨k, b⟩ := q
    by_cases hq : k = e.system
    · simp only [addToBucket, if_pos hq, List.mem_cons] at hp
      rcases hp with rfl | hp
      · simp
      · exact h p (List.mem_cons_of_mem _ hp)
    · simp only [addToBucket, if_neg hq, List.mem_cons] at hp
      rcases hp with rfl | hp
      · exact h (k, b) (List.mem_cons_self _ _)
      · exact ih (fun r hr => h r (List.mem_cons_of_mem _ hr)) p hp

theorem buildBuckets_vals_nonempty (entries : List RepoEntry) :
    ∀ p ∈ buildBuckets entries, p.2 ≠ ([] : List RepoEntry) := by
  suffices h : ∀ (acc : List (String × List RepoEntry)), (∀ p ∈ acc, p.2 ≠ ([] : List RepoEntry)) →
      ∀ p ∈ entries.foldl addToBucket acc, p.2 ≠ ([] : List RepoEntry) by
    exact h [] (by simp)
  induction entries with
  | nil => intro acc h; simpa using h
  | cons e rest ih =>
    intro acc h
    exact ih _ (addToBucket_vals_nonempty acc e h)

theorem buildBuckets_ne_nil {entries : List RepoEntry} (h : entries ≠ []) :
    buildBuckets entries ≠ [] := by
  intro hb
  have hp := buildBuckets_join_perm entries
  rw [hb] at hp
  simp only [bucketsJoin, List.map_nil, List.flatten_nil] at hp
  exact h hp.symm.eq_nil

/-! ### The stable descending sort -/

theorem insertBySizeDesc_perm (x : String × List RepoEntry)
    (l : List (String × List RepoEntry)) : (insertBySizeDesc x l).Perm (x :: l) := by
  induction l with
  | nil => simp [insertBySizeDesc]
  | cons y ys ih =>
    by_cases h : x.2.length < y.2.length
    · simp only [insertBySizeDesc, if_pos h]
      exact (ih.cons y).trans (List.Perm.swap x y ys)
    · simp only [insertBySizeDesc, if_neg h]
      exact List.Perm.refl _

theorem sortBySizeDesc_perm (l : List (String × List RepoEntry)) :
    (sortBySizeDesc l).Perm l := by
  induction l with
  | nil => simp [sortBySizeDesc]
  | cons x xs ih =>
    show (insertBySizeDesc x (sortBySizeDesc xs)).Perm (x :: xs)
    exact (insertBySizeDesc_perm x _).trans (ih.cons x)

theorem systemsSorted_perm (bs : List (String × List RepoEntry)) :
    (systemsSorted bs).Perm (bs.map (·.1)) :=
  (sortBySizeDesc_perm bs).map (fun p : String × List RepoEntry => p.1)

theorem insertBySizeDesc_pairwise (x : String × List RepoEntry)
    {l : List (String × List RepoEntry)}
    (h : l.Pairwise (fun p q => q.2.length ≤ p.2.length)) :
    (insertBySizeDesc x l).Pairwise (fun p q => q.2.length ≤ p.2.length) := by
  induction l with
  | nil => simp [insertBySizeDesc]
  | cons y ys ih =>
    rcases List.pairwise_cons.mp h with ⟨hy, hys⟩
    by_cases hxy : x.2.length < y.2.length
    · simp only [insertBySizeDesc, if_pos hxy]
      refine List.pairwise_cons.mpr ⟨?_, ih hys⟩
      intro z hz
      rcases List.mem_cons.mp ((insertBySizeDesc_perm x ys).mem_iff.mp hz) with rfl | hz'
      · exact Nat.le_of_lt hxy
      · exact hy z hz'
    · simp only [insertBySizeDesc, if_neg hxy]
      refine List.pairwise_cons.mpr ⟨?_, h⟩
      intro z hz
      rcases List.mem_cons.mp hz with rfl | hz'
      · exact Nat.le_of_not_lt hxy
      · exact Nat.le_trans (hy z hz') (Nat.le_of_not_lt hxy)

theorem sortBySizeDesc_pairwise (l : List (String × List RepoEntry)) :
    (sortBySizeDesc l).Pairwise (fun p q => q.2.length ≤ p.2.length) := by
  induction l with
  | nil => simp [sortBySizeDesc]
  | cons x xs ih => exact insertBySizeDesc_pairwise x ih

theorem insertBySizeDesc_filter_eq (x : String × List RepoEntry)
    (l : List (String × List RepoEntry)) (n : Nat) :
    (insertBySizeDesc x l).filter (fun p => p.2.length == n)
      = if x.2.length = n then x :: l.filter (fun p => p.2.length == n)
        else l.filter (fun p => p.2.length == n) := by
  induction l with
  | nil =>
    by_cases h : x.2.length = n <;> simp [insertBySizeDesc, h]
  | cons y ys ih =>
    by_cases hxy : x.2.length < y.2.length
    · simp only [insertBySizeDesc, if_pos hxy]
      by_cases hyn : y.2.length = n
      · have hxn : ¬ x.2.length = n := by omega
        simp [List.filter_cons, hyn, hxn, ih]
      · simp [List.filter_cons, hyn, ih]
    · simp only [insertBySizeDesc, if_neg hxy]
      by_cases hxn : x.2.length = n <;> simp [List.filter_cons, hxn]

theorem sortBySizeDesc_filter_eq (l : List (String × List RepoEntry)) (n : Nat) :
    (sortBySizeDesc l).filter (fun p => p.2.length == n)
      = l.filter (fun p => p.2.length == n) := by
  induction l with
  | nil => rfl
  | cons x xs ih =>
    show (insertBySizeDesc x (sortBySizeDesc xs)).filter _ = _
    rw [insertBySizeDesc_filter_eq]
    by_cases h : x.2.length = n <;> simp [List.filter_cons, h, ih]

/-! ### Allocation: the minimum-one policy -/

theorem initialAlloc_keys (bs : List (String × List RepoEntry)) (n t : Nat) :
    (initialAlloc bs n t).map (·.1) = bs.map (·.1) := by
  simp [initialAlloc, List.map_map]

theorem initialAlloc_length (bs : List (String × List RepoEntry)) (n t : Nat) :
    (initialAlloc bs n t).length = bs.length := by
  simp [initialAlloc]

theorem initialAlloc_pos (bs : List (String × List RepoEntry)) (n t : Nat)
    (hne : ∀ p ∈ bs, p.2 ≠ ([] : List RepoEntry)) :
    ∀ q ∈ initialAlloc bs n t, 1 ≤ q.2 := by
  intro q hq
  simp only [initialAlloc, List.mem_map] at hq
  obtain ⟨p, hp, rfl⟩ := hq
  have hlen : 0 < p.2.length := List.length_pos.mpr (hne p hp)
  by_cases hk : pyRoundFrac (p.2.length * t) n < 1
  · simp [hk, hlen]
  · simp only []
    split
    · exact le_refl 1
    · omega

theorem setAlloc_keys (a : List (String × Nat)) (s : String) (v : Nat) :
    (setAlloc a s v).map (·.1) = a.map (·.1) := by
  simp only [setAlloc, List.map_map]
  refine List.map_congr_left ?_
  intro p _
  simp only [Function.comp]
  split <;> rfl

theorem setAlloc_length (a : List (String × Nat)) (s : String) (v : Nat) :
    (setAlloc a s v).length = a.length := by
  simp [setAlloc]

theorem setAlloc_pos {a : List (String × Nat)} {v : Nat} (h : ∀ p ∈ a, 1 ≤ p.2)
    (hv : 1 ≤ v) (s : String) : ∀ p ∈ setAlloc a s v, 1 ≤ p.2 := by
  intro p hp
  simp only [setAlloc, List.mem_map] at hp
  obtain ⟨q, hq, rfl⟩ := hp
  by_cases hqs : q.1 == s <;> simp [hqs]
  · exact hv
  · exact h q hq

theorem addRemaining_pos (order : List String) :
    ∀ (a : List (String × Nat)) (r idx : Nat), (∀ p ∈ a, 1 ≤ p.2) →
    ∀ p ∈ addRemaining order a r idx, 1 ≤ p.2 := by
  intro a r
  induction r generalizing a with
  | zero => intro idx h p hp; simpa [addRemaining] using h p hp
  | succ r ih =>
    intro idx h
    exact ih _ _ (setAlloc_pos h (Nat.le_add_left 1 _) _)

theorem removeRound_pos :
    ∀ (order : List String) (a : List (String × Nat)) (surplus : Nat), (∀ p ∈ a, 1 ≤ p.2) →
    ∀ p ∈ (removeRound order a surplus).1, 1 ≤ p.2 := by
  intro order
  induction order with
  | nil => intro a surplus h p hp; simpa [removeRound] using h p hp
  | cons s rest ih =>
    intro a surplus h
    by_cases hc : 0 < surplus ∧ 1 < lookupAlloc a s
    · simp only [removeRound, if_pos hc]
      refine ih _ _ (setAlloc_pos h ?_ _)
      omega
    · simp only [removeRound, if_neg hc]
      exact ih _ _ h

theorem removeSurplusGo_pos :
    ∀ (fuel : Nat) (order : List String) (a : List (String × Nat)) (surplus : Nat),
    (∀ p ∈ a, 1 ≤ p.2) → ∀ p ∈ removeSurplusGo fuel order a surplus, 1 ≤ p.2 := by
  intro fuel
  induction fuel with
  | zero => intro order a surplus h p hp; simpa [removeSurplusGo] using h p hp
  | succ fuel ih =>
    intro order a surplus h
    by_cases h0 : surplus = 0
    · simpa [removeSurplusGo, h0] using h
    · by_cases h1 : a.all (fun p => p.2 ≤ 1)
      · simpa [removeSurplusGo, h0, h1] using h
      · simp only [removeSurplusGo, if_neg h0, h1, if_false]
        exact ih _ _ _ (removeRound_pos order a surplus h)

theorem adjustAlloc_pos (order : List String) (a : List (String × Nat)) (target : Nat)
    (h : ∀ p ∈ a, 1 ≤ p.2) : ∀ p ∈ adjustAlloc order a target, 1 ≤ p.2 := by
  unfold adjustAlloc
  by_cases h1 : sumAlloc a < target
  · simp only [if_pos h1]
    exact addRemaining_pos order a _ 0 h
  · simp only [if_neg h1]
    by_cases h2 : target < sumAlloc a
    · simp only [if_pos h2]
      exact removeSurplusGo_pos _ order a _ h
    · simpa [if_neg h2] using h

/-! ### Allocation: the sum after the drift fix-up -/

theorem sumAlloc_cons (p : String × Nat) (l : List (String × Nat)) :
    sumAlloc (p :: l) = p.2 + sumAlloc l := by
  simp [sumAlloc]

theorem lookupAlloc_cons (q : String × Nat) (rest : List (String × Nat)) (s : String) :
    lookupAlloc (q :: rest) s = if (q.1 == s) = true then q.2 else lookupAlloc rest s := by
  by_cases h : (q.1 == s) = true <;> simp [lookupAlloc, List.find?, h]

theorem setAlloc_cons (q : String × Nat) (rest : List (String × Nat)) (s : String) (v : Nat) :
    setAlloc (q :: rest) s v
      = (if (q.1 == s) = true then (q.1, v) else q) :: setAlloc rest s v := by
  simp [setAlloc]

theorem setAlloc_eq_of_not_mem {rest : List (String × Nat)} {s : String}
    (h : s ∉ rest.map (·.1)) (v : Nat) : setAlloc rest s v = rest := by
  induction rest with
  | nil => rfl
  | cons q r ih =>
    simp only [List.map_cons, List.mem_cons] at h
    push_neg at h
    have hb : ¬ ((q.1 == s) = true) := by
      simpa [beq_iff_eq] using fun he => h.1 he.symm
    rw [setAlloc_cons, if_neg hb, ih h.2]

theorem lookupAlloc_eq_of_mem {a : List (String × Nat)} (hnd : (a.map (·.1)).Nodup)
    {p : String × Nat} (hp : p ∈ a) : lookupAlloc a p.1 = p.2 := by
  induction a with
  | nil => cases hp
  | cons q rest ih =>
    simp only [List.map_cons, List.nodup_cons] at hnd
    rcases List.mem_cons.mp hp with rfl | hp'
    · simp [lookupAlloc_cons]
    · have hne : ¬ ((q.1 == p.1) = true) := by
        intro hq
        exact hnd.1 (List.mem_map.mpr ⟨p, hp', (eq_of_beq hq).symm⟩)
      rw [lookupAlloc_cons, if_neg hne]
      exact ih hnd.2 hp'

theorem lookupAlloc_eq_zero_of_not_mem {a : List (String × Nat)} {s : String}
    (h : s ∉ a.map (·.1)) : lookupAlloc a s = 0 := by
  induction a with
  | nil => rfl
  | cons q rest ih =>
    simp only [List.map_cons, List.mem_cons] at h
    push_neg at h
    have hne : ¬ ((q.1 == s) = true) := by
      intro hq
      exact h.1 (eq_of_beq hq).symm
    rw [lookupAlloc_cons, if_neg hne]
    exact ih h.2

theorem mem_keys_of_lookupAlloc_pos {a : List (String × Nat)} {s : String}
    (h : 0 < lookupAlloc a s) : s ∈ a.map (·.1) := by
  by_contra hc
  rw [lookupAlloc_eq_zero_of_not_mem hc] at h
  exact Nat.lt_irrefl 0 h

theorem sumAlloc_setAlloc {a : List (String × Nat)} (hnd : (a.map (·.1)).Nodup)
    {s : String} (hs : s ∈ a.map (·.1)) (v : Nat) :
    sumAlloc (setAlloc a s v) + lookupAlloc a s = sumAlloc a + v := by
  induction a with
  | nil => cases hs
  | cons q rest ih =>
    simp only [List.map_cons, List.nodup_cons] at hnd
    rw [setAlloc_cons, sumAlloc_cons, lookupAlloc_cons, sumAlloc_cons]
    by_cases hq : (q.1 == s) = true
    · rw [if_pos hq, if_pos hq]
      have hsq : q.1 = s := eq_of_beq hq
      have hsrest : s ∉ rest.map (·.1) := by
        rw [← hsq]
        exact hnd.1
      rw [setAlloc_eq_of_not_mem hsrest]
      omega
    · rw [if_neg hq, if_neg hq]
      have hs' : s ∈ rest.map (·.1) := by
        simp only [List.map_cons, List.mem_cons] at hs
        rcases hs with rfl | hs'
        · exact absurd (beq_iff_eq.mpr rfl) hq
        · exact hs'
      have := ih hnd.2 hs'
      omega

theorem addRemaining_keys (order : List String) :
    ∀ (a : List (String × Nat)) (r idx : Nat),
    (addRemaining order a r idx).map (·.1) = a.map (·.1) := by
  intro a r
  induction r generalizing a with
  | zero => intro idx; rfl
  | succ r ih =>
    intro idx
    rw [addRemaining, ih, setAlloc_keys]

theorem addRemaining_sum (order : List String) :
    ∀ (a : List (String × Nat)) (r idx : Nat), ((a.map (·.1)).Nodup) →
    (∀ x ∈ order, x ∈ a.map (·.1)) → order ≠ [] →
    sumAlloc (addRemaining order a r idx) = sumAlloc a + r := by
  intro a r
  induction r generalizing a with
  | zero => intro idx _ _ _; rfl
  | succ r ih =>
    intro idx hnd hcov hord
    have hlen : 0 < order.length := List.length_pos.mpr hord
    have hidx : idx % order.length < order.length := Nat.mod_lt _ hlen
    have hmemo : order.getD (idx % order.length) "" ∈ order := by
      rw [List.getD_eq_getElem?_getD, List.getElem?_eq_getElem hidx]
      exact List.getElem_mem _
    have hmem : order.getD (idx % order.length) "" ∈ a.map (·.1) := hcov _ hmemo
    rw [addRemaining]
    set s := order.getD (idx % order.length) ""
    have hset := sumAlloc_setAlloc hnd hmem (lookupAlloc a s + 1)
    have hkeys := setAlloc_keys a s (lookupAlloc a s + 1)
    have := ih (setAlloc a s (lookupAlloc a s + 1)) (idx + 1) (hkeys ▸ hnd)
      (fun x hx => hkeys ▸ hcov x hx) hord
    omega

theorem removeRound_keys :
    ∀ (order : List String) (a : List (String × Nat)) (surplus : Nat),
    (removeRound order a surplus).1.map (·.1) = a.map (·.1) := by
  intro order
  induction order with
  | nil => intro a surplus; rfl
  | cons s rest ih =>
    intro a surplus
    by_cases hc : 0 < surplus ∧ 1 < lookupAlloc a s
    · rw [removeRound, if_pos hc, ih, setAlloc_keys]
    · rw [removeRound, if_neg hc, ih]

theorem removeRound_surplus_le :
    ∀ (order : List String) (a : List (String × Nat)) (surplus : Nat),
    (removeRound order a surplus).2 ≤ surplus := by
  intro order
  induction order with
  | nil => intro a surplus; exact Nat.le_refl _
  | cons s rest ih =>
    intro a surplus
    by_cases hc : 0 < surplus ∧ 1 < lookupAlloc a s
    · rw [removeRound, if_pos hc]
      exact Nat.le_trans (ih _ _) (Nat.sub_le _ _)
    · rw [removeRound, if_neg hc]
      exact ih _ _

theorem removeRound_sum :
    ∀ (order : List String) (a : List (String × Nat)) (surplus : Nat),
    ((a.map (·.1)).Nodup) →
    sumAlloc (removeRound order a surplus).1 + surplus
      = sumAlloc a + (removeRound order a surplus).2 := by
  intro order
  induction order with
  | nil => intro a surplus _; rfl
  | cons s rest ih =>
    intro a surplus hnd
    by_cases hc : 0 < surplus ∧ 1 < lookupAlloc a s
    · rw [removeRound, if_pos hc]
      have hmem : s ∈ a.map (·.1) := mem_keys_of_lookupAlloc_pos (Nat.lt_of_lt_of_le one_pos (Nat.le_of_lt hc.2))
      have hset := sumAlloc_setAlloc hnd hmem (lookupAlloc a s - 1)
      have hkeys := setAlloc_keys a s (lookupAlloc a s - 1)
      have hih := ih (setAlloc a s (lookupAlloc a s - 1)) (surplus - 1) (hkeys ▸ hnd)
      have h2 := hc.2
      have h0 := hc.1
      omega
    · rw [removeRound, if_neg hc]
      exact ih _ _ hnd

theorem removeRound_progress :
    ∀ (order : List String) (a : List (String × Nat)) (surplus : Nat),
    0 < surplus → (∃ x ∈ order, 1 < lookupAlloc a x) →
    (removeRound order a surplus).2 < surplus := by
  intro order
  induction order with
  | nil =>
    intro a surplus _ hx
    obtain ⟨x, hx, _⟩ := hx
    cases hx
  | cons s rest ih =>
    intro a surplus h0 hx
    by_cases hc : 0 < surplus ∧ 1 < lookupAlloc a s
    · rw [removeRound, if_pos hc]
      exact Nat.lt_of_le_of_lt (removeRound_surplus_le _ _ _) (by omega)
    · rw [removeRound, if_neg hc]
      obtain ⟨x, hxm, hxv⟩ := hx
      rcases List.mem_cons.mp hxm with rfl | hxm'
      · exact absurd ⟨h0, hxv⟩ hc
      · exact ih a surplus h0 ⟨x, hxm', hxv⟩

theorem removeSurplusGo_keys :
    ∀ (fuel : Nat) (order : List String) (a : List (String × Nat)) (surplus : Nat),
    (removeSurplusGo fuel order a surplus).map (·.1) = a.map (·.1) := by
  intro fuel
  induction fuel with
  | zero => intro order a surplus; rfl
  | succ fuel ih =>
    intro order a surplus
    by_cases h0 : surplus = 0
    · rw [removeSurplusGo, if_pos h0]
    · by_cases h1 : a.all (fun p => p.2 ≤ 1)
      · rw [removeSurplusGo, if_neg h0, if_pos h1]
      · rw [removeSurplusGo, if_neg h0, if_neg h1, ih, removeRound_keys]

theorem removeSurplusGo_spec :
    ∀ (fuel : Nat) (order : List String) (a : List (String × Nat)) (surplus T : Nat),
    surplus ≤ fuel → ((a.map (·.1)).Nodup) → (∀ p ∈ a, p.1 ∈ order) →
    sumAlloc a = T + surplus →
    ∃ s', sumAlloc (removeSurplusGo fuel order a surplus) = T + s' ∧
      (s' = 0 ∨ ∀ p ∈ removeSurplusGo fuel order a surplus, p.2 ≤ 1) := by
  intro fuel
  induction fuel with
  | zero =>
    intro order a surplus T hf hnd hcov hsum
    refine ⟨0, ?_, Or.inl rfl⟩
    have : surplus = 0 := Nat.le_zero.mp hf
    rw [removeSurplusGo]
    omega
  | succ fuel ih =>
    intro order a surplus T hf hnd hcov hsum
    by_cases h0 : surplus = 0
    · rw [removeSurplusGo, if_pos h0]
      exact ⟨0, by omega, Or.inl rfl⟩
    · by_cases h1 : a.all (fun p => p.2 ≤ 1)
      · rw [removeSurplusGo, if_neg h0, if_pos h1]
        refine ⟨surplus, hsum, Or.inr ?_⟩
        intro p hp
        have := List.all_eq_true.mp h1 p hp
        exact Nat.le_of_ble_eq_true (by simpa using this)
      · rw [removeSurplusGo, if_neg h0, if_neg h1]
        have hexists : ∃ x ∈ order, 1 < lookupAlloc a x := by
          rw [List.all_eq_true] at h1
          push_neg at h1
          obtain ⟨p, hp, hpv⟩ := h1
          refine ⟨p.1, hcov p hp, ?_⟩
          rw [lookupAlloc_eq_of_mem hnd hp]
          simpa using hpv
        have hprog := removeRound_progress order a surplus (Nat.pos_of_ne_zero h0) hexists
        have hrs := removeRound_sum order a surplus hnd
        have hrkeys := removeRound_keys order a surplus
        have hcov' : ∀ p ∈ (removeRound order a surplus).1, p.1 ∈ order := by
          intro p hp
          have hpk : p.1 ∈ (removeRound order a surplus).1.map (·.1) :=
            List.mem_map.mpr ⟨p, hp, rfl⟩
          rw [hrkeys] at hpk
          obtain ⟨q, hq, hq1⟩ := List.mem_map.mp hpk
          exact hq1 ▸ hcov q hq
        exact ih order (removeRound order a surplus).1 (removeRound order a surplus).2 T
          (by omega) (hrkeys ▸ hnd) hcov' (by omega)

theorem length_le_sumAlloc {a : List (String × Nat)} (h : ∀ p ∈ a, 1 ≤ p.2) :
    a.length ≤ sumAlloc a := by
  induction a with
  | nil => exact Nat.le_refl _
  | cons p rest ih =>
    simp only [sumAlloc, List.map_cons, List.sum_cons, List.length_cons]
    have h1 := h p (List.mem_cons_self _ _)
    have h2 := ih (fun q hq => h q (List.mem_cons_of_mem _ hq))
    simp only [sumAlloc] at h2
    omega

theorem sumAlloc_eq_length_of_all_one {a : List (String × Nat)}
    (h1 : ∀ p ∈ a, 1 ≤ p.2) (h2 : ∀ p ∈ a, p.2 ≤ 1) : sumAlloc a = a.length := by
  induction a with
  | nil => rfl
  | cons p rest ih =>
    simp only [sumAlloc, List.map_cons, List.sum_cons, List.length_cons]
    have ha := h1 p (List.mem_cons_self _ _)
    have hb := h2 p (List.mem_cons_self _ _)
    have hc := ih (fun q hq => h1 q (List.mem_cons_of_mem _ hq))
      (fun q hq => h2 q (List.mem_cons_of_mem _ hq))
    simp only [sumAlloc] at hc
    omega

theorem adjustAlloc_length (order : List String) (a : List (String × Nat)) (T : Nat) :
    (adjustAlloc order a T).length = a.length := by
  have h1 : (adjustAlloc order a T).map (·.1) = a.map (·.1) := by
    unfold adjustAlloc
    by_cases hlt : sumAlloc a < T
    · rw [if_pos hlt, addRemaining_keys]
    · rw [if_neg hlt]
      by_cases hgt : T < sumAlloc a
      · rw [if_pos hgt, removeSurplusGo_keys]
      · rw [if_neg hgt]
  calc (adjustAlloc order a T).length = ((adjustAlloc order a T).map (·.1)).length :=
        (List.length_map _ _).symm
    _ = (a.map (·.1)).length := by rw [h1]
    _ = a.length := List.length_map _ _

theorem adjustAlloc_sum (order : List String) (a : List (String × Nat)) (T : Nat)
    (hnd : (a.map (·.1)).Nodup) (hpos : ∀ p ∈ a, 1 ≤ p.2)
    (hcov : ∀ p ∈ a, p.1 ∈ order) (hcov2 : ∀ x ∈ order, x ∈ a.map (·.1)) (hne : a ≠ []) :
    sumAlloc (adjustAlloc order a T) = max T a.length := by
  have hlen : a.length ≤ sumAlloc a := length_le_sumAlloc hpos
  have hord : order ≠ [] := by
    obtain ⟨p, hp⟩ := List.exists_mem_of_ne_nil a hne
    intro h
    rw [h] at hcov
    cases hcov p hp
  unfold adjustAlloc
  by_cases hlt : sumAlloc a < T
  · rw [if_pos hlt, addRemaining_sum order a _ 0 hnd hcov2 hord]
    omega
  · rw [if_neg hlt]
    by_cases hgt : T < sumAlloc a
    · rw [if_pos hgt]
      obtain ⟨s', hsum, hcase⟩ := removeSurplusGo_spec (sumAlloc a - T) order a (sumAlloc a - T)
        T (Nat.le_refl _) hnd hcov (by omega)
      rcases hcase with rfl | hall
      · have hposR := removeSurplusGo_pos (sumAlloc a - T) order a (sumAlloc a - T) hpos
        have hlenR : (removeSurplusGo (sumAlloc a - T) order a (sumAlloc a - T)).length
            = a.length := by
          have hk := removeSurplusGo_keys (sumAlloc a - T) order a (sumAlloc a - T)
          calc (removeSurplusGo (sumAlloc a - T) order a (sumAlloc a - T)).length
              = ((removeSurplusGo (sumAlloc a - T) order a (sumAlloc a - T)).map
                  (·.1)).length := (List.length_map _ _).symm
            _ = (a.map (·.1)).length := by rw [hk]
            _ = a.length := List.length_map _ _
        have := length_le_sumAlloc hposR
        omega
      · have hposR := removeSurplusGo_pos (sumAlloc a - T) order a (sumAlloc a - T) hpos
        have heq := sumAlloc_eq_length_of_all_one hposR hall
        have hlenR : (removeSurplusGo (sumAlloc a - T) order a (sumAlloc a - T)).length
            = a.length := by
          have hk := removeSurplusGo_keys (sumAlloc a - T) order a (sumAlloc a - T)
          calc (removeSurplusGo (sumAlloc a - T) order a (sumAlloc a - T)).length
              = ((removeSurplusGo (sumAlloc a - T) order a (sumAlloc a - T)).map
                  (·.1)).length := (List.length_map _ _).symm
            _ = (a.map (·.1)).length := by rw [hk]
            _ = a.length := List.length_map _ _
        omega
    · rw [if_neg hgt]
      omega

/-! ### Claim theorems: determinism, allocation -/

/-- Claim C2: for every population sequence, every target, and every seed, two
calls of the sampling function (`stratified_sample` as well as
`main_author_diverse_stratified_sample`) with the same entries in the same
order, the same target, and a freshly created RNG seeded with the same seed
return identical samples. -/
theorem claim_C2 (entries : List RepoEntry) (target_size : Int) (s1 s2 : Nat) (h : s1 = s2) :
    stratified_sample entries target_size s1 = stratified_sample entries target_size s2 ∧
    main_author_diverse_stratified_sample entries target_size s1
      = main_author_diverse_stratified_sample entries target_size s2 := by
  subst h
  exact ⟨rfl, rfl⟩

/-- Claim C2, witness at a concrete population, target, and seed. -/
theorem claim_C2_witness :
    (123456 : Nat) = 123456 ∧
    (stratified_sample exThreeSingl 1 123456 = stratified_sample exThreeSingl 1 123456 ∧
     main_author_diverse_stratified_sample exThreeSingl 1 123456
       = main_author_diverse_stratified_sample exThreeSingl 1 123456) :=
  ⟨rfl, claim_C2 exThreeSingl 1 123456 123456 rfl⟩

/-- Claim C4: for every population and every target ≥ 1, after the initial
proportional allocation and after the drift fix-up, every stratum (all buckets
are non-empty by construction) has quota ≥ 1; and the surplus-removal pass
never reduces any quota below 1 whatever allocation it is applied to. -/
theorem claim_C4 (entries : List RepoEntry) (target : Nat) (h1 : 1 ≤ target) :
    (∀ q ∈ initialAlloc (buildBuckets entries) entries.length target, 1 ≤ q.2) ∧
    (∀ q ∈ adjustAlloc (systemsSorted (buildBuckets entries))
        (initialAlloc (buildBuckets entries) entries.length target) target, 1 ≤ q.2) ∧
    (∀ (order : List String) (a : List (String × Nat)) (surplus : Nat),
      (∀ p ∈ a, 1 ≤ p.2) → ∀ p ∈ (removeRound order a surplus).1, 1 ≤ p.2) :=
  ⟨initialAlloc_pos _ _ _ (buildBuckets_vals_nonempty entries),
    adjustAlloc_pos _ _ _ (initialAlloc_pos _ _ _ (buildBuckets_vals_nonempty entries)),
    removeRound_pos⟩

/-- Claim C4, witness: the three-singleton-strata population with target 1. -/
theorem claim_C4_witness :
    (1 : Nat) ≤ 1 ∧
    (∀ q ∈ adjustAlloc (systemsSorted (buildBuckets exThreeSingl))
        (initialAlloc (buildBuckets exThreeSingl) exThreeSingl.length 1) 1, 1 ≤ q.2) :=
  ⟨le_refl 1, (claim_C4 exThreeSingl 1 (le_refl 1)).2.1⟩

/-- Claim C5, counterexample: three singleton strata with target 1.  The
initial allocation gives each stratum quota 1 (sum 3 > 1); the surplus-removal
loop stops immediately because no quota exceeds 1, and the final quota sum is
3 — it does not equal the target, and it exceeds rather than falls short of
the target. -/
theorem claim_C5_counterexample :
    sumAlloc (adjustAlloc (systemsSorted (buildBuckets exThreeSingl))
        (initialAlloc (buildBuckets exThreeSingl) exThreeSingl.length 1) 1) = 3 ∧
    (3 : Nat) ≠ 1 ∧ ¬ ((3 : Nat) < 1) := by
  refine ⟨by decide, by decide, by decide⟩

/-- Claim C5 (amended): for every non-empty population and every target
(clamped: `1 ≤ target ≤ n`), the per-stratum quotas after the drift fix-up sum
to `max target K` where `K` is the number of non-empty strata — exactly the
target whenever the surplus can be removed without driving a quota below 1,
and otherwise (the removal loop stops with every quota equal to 1) the sum
*exceeds* the target, equalling the number of strata. -/
theorem claim_C5_amended (entries : List RepoEntry) (target : Nat)
    (h0 : entries ≠ []) (h1 : 1 ≤ target) (h2 : target ≤ entries.length) :
    sumAlloc (adjustAlloc (systemsSorted (buildBuckets entries))
        (initialAlloc (buildBuckets entries) entries.length target) target)
      = max target (buildBuckets entries).length := by
  have hknd : ((initialAlloc (buildBuckets entries) entries.length target).map (·.1)).Nodup := by
    rw [initialAlloc_keys]
    exact buildBuckets_keys_nodup entries
  have hpos := initialAlloc_pos (buildBuckets entries) entries.length target
    (buildBuckets_vals_nonempty entries)
  have hcov : ∀ p ∈ initialAlloc (buildBuckets entries) entries.length target,
      p.1 ∈ systemsSorted (buildBuckets entries) := by
    intro p hp
    have hm : p.1 ∈ (initialAlloc (buildBuckets entries) entries.length target).map (·.1) :=
      List.mem_map.mpr ⟨p, hp, rfl⟩
    rw [initialAlloc_keys] at hm
    exact (systemsSorted_perm (buildBuckets entries)).mem_iff.mpr hm
  have hcov2 : ∀ x ∈ systemsSorted (buildBuckets entries),
      x ∈ (initialAlloc (buildBuckets entries) entries.length target).map (·.1) := by
    intro x hx
    rw [initialAlloc_keys]
    exact (systemsSorted_perm (buildBuckets entries)).mem_iff.mp hx
  have hne : initialAlloc (buildBuckets entries) entries.length target ≠ [] := by
    intro h
    have hl := initialAlloc_length (buildBuckets entries) entries.length target
    rw [h] at hl
    exact buildBuckets_ne_nil h0 (List.length_eq_zero.mp hl.symm)
  have := adjustAlloc_sum (systemsSorted (buildBuckets entries))
    (initialAlloc (buildBuckets entries) entries.length target) target hknd hpos hcov hcov2 hne
  rw [this, initialAlloc_length]

/-- Claim C5 (amended), witness: three singleton strata, target 2 (sum is
`max 2 3 = 3`). -/
theorem claim_C5_witness :
    (exThreeSingl ≠ [] ∧ 1 ≤ 2 ∧ 2 ≤ exThreeSingl.length) ∧
    sumAlloc (adjustAlloc (systemsSorted (buildBuckets exThreeSingl))
        (initialAlloc (buildBuckets exThreeSingl) exThreeSingl.length 2) 2)
      = max 2 (buildBuckets exThreeSingl).length :=
  ⟨⟨by decide, by decide, by decide⟩,
    claim_C5_amended exThreeSingl 2 (by decide) (by decide) (by decide)⟩

/-- Claim C6, counterexample: with two equal-sized strata created in the order
`"b"`, `"a"`, the scripts' `systems_sorted` keeps the creation order
`["b", "a"]` while the claimed (descending size, lexical tie-break) order is
`["a", "b"]`; and `script.py`'s drawing loop iterates bucket creation order —
a population whose first-created stratum is smaller is processed ascending by
size. -/
theorem claim_C6_counterexample :
    systemsSorted (buildBuckets exTie) = ["b", "a"] ∧
    specOrderedSystems (buildBuckets exTie) = ["a", "b"] ∧
    systemsSorted (buildBuckets exTie) ≠ specOrderedSystems (buildBuckets exTie) ∧
    plainSelectionOrder (buildBuckets exSmallFirst) = ["s1", "s2"] ∧
    (buildBuckets exSmallFirst).map (fun p => p.2.length) = [1, 2] := by
  refine ⟨by decide, by decide, by decide, by decide, by decide⟩

/-- Claim C6 (amended): the drift fix-up order (`systems_sorted`, also the
selection order of `script_distinct_authors.py`) sorts strata by descending
bucket size with ties kept in bucket creation (dict insertion) order — it is a
permutation of the bucket labels, pairwise descending in size, and stable
(each size class appears exactly in creation order).  `script.py`'s selection
pass instead iterates `buckets.items()`, i.e. plain creation order. -/
theorem claim_C6_amended (bs : List (String × List RepoEntry)) :
    (sortBySizeDesc bs).Perm bs ∧
    (sortBySizeDesc bs).Pairwise (fun p q => q.2.length ≤ p.2.length) ∧
    (∀ n : Nat, (sortBySizeDesc bs).filter (fun p => p.2.length == n)
      = bs.filter (fun p => p.2.length == n)) ∧
    systemsSorted bs = (sortBySizeDesc bs).map (·.1) ∧
    plainSelectionOrder bs = bs.map (·.1) :=
  ⟨sortBySizeDesc_perm bs, sortBySizeDesc_pairwise bs, sortBySizeDesc_filter_eq bs, rfl, rfl⟩

/-! ### Claim theorems: malformed-record recovery -/

/-- Claim C9, counterexample: on a page of three hits with one malformed
record, the per-page progress line reports the pair (3, 2) — the fetched-hit
count and the new running total of parsed entries — and neither number is the
count of skipped records (1); no skipped-record count is reported. -/
theorem claim_C9_counterexample :
    skippedCount exPage = 1 ∧ pageReport exPage 0 = (3, 2) ∧
    (pageReport exPage 0).1 ≠ skippedCount exPage ∧
    (pageReport exPage 0).2 ≠ skippedCount exPage := by
  refine ⟨by decide, by decide, by decide, by decide⟩

/-- Claim C9 (amended): a raw record missing `entry_id` is skipped without
aborting the page loop, the remaining records are processed in order, and the
number of parsed entries plus the number of skipped records equals the page's
hit count (the page report carries the hit count and running parsed total,
from which the skip count is derivable, but no explicit skip count). -/
theorem claim_C9_amended (hits : List RawHit) (total : Nat) :
    ((processHits hits).length + skippedCount hits = hits.length) ∧
    (∀ h : RawHit, h.entry_id = none → processHits (h :: hits) = processHits hits) ∧
    (∀ (h : RawHit) (eid : String), h.entry_id = some eid →
      ∃ e : RepoEntry, from_api_result h = some e ∧
        processHits (h :: hits) = e :: processHits hits) ∧
    pageReport hits total = (hits.length, total + (processHits hits).length) := by
  refine ⟨?_, ?_, ?_, rfl⟩
  · induction hits with
    | nil => rfl
    | cons h rest ih =>
      cases hh : h.entry_id with
      | none =>
        have hfm : from_api_result h = none := by simp [from_api_result, hh]
        have hskip : skippedCount (h :: rest) = skippedCount rest + 1 := by
          simp [skippedCount, List.filter_cons, hh]
        have hph : processHits (h :: rest) = processHits rest := by
          simp [processHits, List.filterMap_cons, hfm]
        rw [hph, hskip, List.length_cons]
        omega
      | some eid =>
        cases hfm : from_api_result h with
        | none => simp [from_api_result, hh] at hfm
        | some e =>
        have hskip : skippedCount (h :: rest) = skippedCount rest := by
          simp [skippedCount, List.filter_cons, hh]
        have hph : processHits (h :: rest) = e :: processHits rest := by
          simp [processHits, List.filterMap_cons, hfm]
        rw [hph, hskip, List.length_cons, List.length_cons]
        omega
  · intro h hh
    simp [processHits, List.filterMap_cons, from_api_result, hh]
  · intro h eid hh
    cases hfm : from_api_result h with
    | none => simp [from_api_result, hh] at hfm
    | some e => exact ⟨e, rfl, by simp [processHits, List.filterMap_cons, hfm]⟩

/-- Claim C9 (amended), witness: the three-hit page with one malformed record,
and skipping a fully-absent hit prepended to it. -/
theorem claim_C9_witness :
    ((processHits exPage).length + skippedCount exPage = exPage.length) ∧
    processHits (⟨none, none, none, none, none⟩ :: exPage) = processHits exPage :=
  ⟨(claim_C9_amended exPage 0).1, (claim_C9_amended exPage 0).2.1 _ rfl⟩

/-! ### The two selection passes -/

theorem firstPassGo_sel_append (need : Nat) :
    ∀ (l sel : List RepoEntry) (used : List String),
    ∃ ex, (firstPassGo need l sel used).1 = sel ++ ex ∧
      ∀ e ∈ ex, e ∈ l ∧ e.main_author ≠ none := by
  intro l
  induction l with
  | nil => intro sel used; exact ⟨[], by simp [firstPassGo], by simp⟩
  | cons e rest ih =>
    intro sel used
    by_cases hn : need ≤ sel.length
    · exact ⟨[], by simp [firstPassGo, hn], by simp⟩
    · cases hma : e.main_author with
      | none =>
        obtain ⟨ex, h1, h2⟩ := ih sel used
        refine ⟨ex, ?_, fun x hx => ⟨List.mem_cons_of_mem _ (h2 x hx).1, (h2 x hx).2⟩⟩
        simpa [firstPassGo, hn, hma] using h1
      | some a =>
        by_cases ha : a ∈ used
        · obtain ⟨ex, h1, h2⟩ := ih sel used
          refine ⟨ex, ?_, fun x hx => ⟨List.mem_cons_of_mem _ (h2 x hx).1, (h2 x hx).2⟩⟩
          simpa [firstPassGo, hn, hma, ha] using h1
        · obtain ⟨ex, h1, h2⟩ := ih (sel ++ [e]) (a :: used)
          refine ⟨e :: ex, ?_, ?_⟩
          · have : (firstPassGo need (e :: rest) sel used)
                = firstPassGo need rest (sel ++ [e]) (a :: used) := by
              simp [firstPassGo, hn, hma, ha]
            rw [this, h1, List.append_assoc, List.singleton_append]
          · intro x hx
            rcases List.mem_cons.mp hx with rfl | hx'
            · exact ⟨List.mem_cons_self _ _, by simp [hma]⟩
            · exact ⟨List.mem_cons_of_mem _ (h2 x hx').1, (h2 x hx').2⟩

theorem firstPassGo_sel_sub (need : Nat) (l sel : List RepoEntry) (used : List String) :
    ∀ y ∈ sel, y ∈ (firstPassGo need l sel used).1 := by
  obtain ⟨ex, h1, _⟩ := firstPassGo_sel_append need l sel used
  intro y hy
  rw [h1]
  exact List.mem_append_left _ hy

theorem firstPassGo_used_mono (need : Nat) :
    ∀ (l sel : List RepoEntry) (used : List String) (x : String), x ∈ used →
    x ∈ (firstPassGo need l sel used).2 := by
  intro l
  induction l with
  | nil => intro sel used x hx; simpa [firstPassGo] using hx
  | cons e rest ih =>
    intro sel used x hx
    by_cases hn : need ≤ sel.length
    · simpa [firstPassGo, hn] using hx
    · cases hma : e.main_author with
      | none =>
        have := ih sel used x hx
        simpa [firstPassGo, hn, hma] using this
      | some a =>
        by_cases ha : a ∈ used
        · have := ih sel used x hx
          simpa [firstPassGo, hn, hma, ha] using this
        · have := ih (sel ++ [e]) (a :: used) x (List.mem_cons_of_mem _ hx)
          simpa [firstPassGo, hn, hma, ha] using this

theorem firstPassGo_used_sub (need : Nat) :
    ∀ (l sel : List RepoEntry) (used : List String),
    ∀ x ∈ (firstPassGo need l sel used).2,
      x ∈ used ∨ ∃ e ∈ (firstPassGo need l sel used).1, e.main_author = some x := by
  intro l
  induction l with
  | nil => intro sel used x hx; exact Or.inl (by simpa [firstPassGo] using hx)
  | cons e rest ih =>
    intro sel used x hx
    by_cases hn : need ≤ sel.length
    · exact Or.inl (by simpa [firstPassGo, hn] using hx)
    · cases hma : e.main_author with
      | none =>
        have hstep : firstPassGo need (e :: rest) sel used
            = firstPassGo need rest sel used := by
          simp [firstPassGo, hn, hma]
        rw [hstep] at hx ⊢
        exact ih sel used x hx
      | some a =>
        by_cases ha : a ∈ used
        · have hstep : firstPassGo need (e :: rest) sel used
              = firstPassGo need rest sel used := by
            simp [firstPassGo, hn, hma, ha]
          rw [hstep] at hx ⊢
          exact ih sel used x hx
        · have hstep : firstPassGo need (e :: rest) sel used
              = firstPassGo need rest (sel ++ [e]) (a :: used) := by
            simp [firstPassGo, hn, hma, ha]
          rw [hstep] at hx ⊢
          rcases ih (sel ++ [e]) (a :: used) x hx with hx' | ⟨e', he', hma'⟩
          · rcases List.mem_cons.mp hx' with heq | hx''
            · rw [heq]
              refine Or.inr ⟨e, ?_, hma⟩
              exact firstPassGo_sel_sub need rest (sel ++ [e]) (a :: used) e
                (List.mem_append_right _ (List.mem_singleton_self e))
            · exact Or.inl hx''
          · exact Or.inr ⟨e', he', hma'⟩

theorem firstPassGo_new_not_used (need : Nat) :
    ∀ (l sel : List RepoEntry) (used : List String),
    ∀ x ∈ (firstPassGo need l sel used).1.filterMap RepoEntry.main_author,
      x ∈ used → x ∈ sel.filterMap RepoEntry.main_author := by
  intro l
  induction l with
  | nil => intro sel used x hx hu; simpa [firstPassGo] using hx
  | cons e rest ih =>
    intro sel used x hx hu
    by_cases hn : need ≤ sel.length
    · simpa [firstPassGo, hn] using hx
    · cases hma : e.main_author with
      | none =>
        have hstep : firstPassGo need (e :: rest) sel used
            = firstPassGo need rest sel used := by
          simp [firstPassGo, hn, hma]
        rw [hstep] at hx
        exact ih sel used x hx hu
      | some a =>
        by_cases ha : a ∈ used
        · have hstep : firstPassGo need (e :: rest) sel used
              = firstPassGo need rest sel used := by
            simp [firstPassGo, hn, hma, ha]
          rw [hstep] at hx
          exact ih sel used x hx hu
        · have hstep : firstPassGo need (e :: rest) sel used
              = firstPassGo need rest (sel ++ [e]) (a :: used) := by
            simp [firstPassGo, hn, hma, ha]
          rw [hstep] at hx
          have := ih (sel ++ [e]) (a :: used) x hx (List.mem_cons_of_mem _ hu)
          rw [List.filterMap_append] at this
          rcases List.mem_append.mp this with h' | h'
          · exact h'
          · simp only [List.filterMap_cons, hma, List.filterMap_nil] at h'
            rcases List.mem_singleton.mp h' with rfl
            exact absurd hu ha

theorem firstPassGo_authors (need : Nat) :
    ∀ (l sel : List RepoEntry) (used : List String),
    ((sel.filterMap RepoEntry.main_author).Nodup) →
    (∀ x ∈ sel.filterMap RepoEntry.main_author, x ∈ used) →
    sel.Nodup →
    (((firstPassGo need l sel used).1.filterMap RepoEntry.main_author).Nodup) ∧
    (∀ x ∈ (firstPassGo need l sel used).1.filterMap RepoEntry.main_author,
      x ∈ (firstPassGo need l sel used).2) ∧
    ((firstPassGo need l sel used).1.Nodup) := by
  intro l
  induction l with
  | nil =>
    intro sel used h1 h2 h3
    refine ⟨by simpa [firstPassGo] using h1, ?_, by simpa [firstPassGo] using h3⟩
    intro x hx
    simp only [firstPassGo] at hx ⊢
    exact h2 x hx
  | cons e rest ih =>
    intro sel used h1 h2 h3
    by_cases hn : need ≤ sel.length
    · refine ⟨by simpa [firstPassGo, hn] using h1, ?_, by simpa [firstPassGo, hn] using h3⟩
      intro x hx
      simp only [firstPassGo, hn, if_pos] at hx ⊢
      exact h2 x hx
    · cases hma : e.main_author with
      | none =>
        have hstep : firstPassGo need (e :: rest) sel used
            = firstPassGo need rest sel used := by
          simp [firstPassGo, hn, hma]
        rw [hstep]
        exact ih sel used h1 h2 h3
      | some a =>
        by_cases ha : a ∈ used
        · have hstep : firstPassGo need (e :: rest) sel used
              = firstPassGo need rest sel used := by
            simp [firstPassGo, hn, hma, ha]
          rw [hstep]
          exact ih sel used h1 h2 h3
        · have hstep : firstPassGo need (e :: rest) sel used
              = firstPassGo need rest (sel ++ [e]) (a :: used) := by
            simp [firstPassGo, hn, hma, ha]
          rw [hstep]
          have hfa : (sel ++ [e]).filterMap RepoEntry.main_author
              = sel.filterMap RepoEntry.main_author ++ [a] := by
            simp [List.filterMap_append, List.filterMap_cons, hma]
          have hananew : a ∉ sel.filterMap RepoEntry.main_author := fun hc => ha (h2 a hc)
          have h1' : ((sel ++ [e]).filterMap RepoEntry.main_author).Nodup := by
            rw [hfa]
            simp only [List.nodup_append, List.nodup_singleton]
            exact ⟨h1, trivial, by
              intro x hx hmem
              rcases List.mem_singleton.mp hmem with rfl
              exact hananew hx⟩
          have h2' : ∀ x ∈ (sel ++ [e]).filterMap RepoEntry.main_author, x ∈ a :: used := by
            rw [hfa]
            intro x hx
            rcases List.mem_append.mp hx with hx' | hx'
            · exact List.mem_cons_of_mem _ (h2 x hx')
            · rcases List.mem_singleton.mp hx' with rfl
              exact List.mem_cons_self _ _
          have h3' : (sel ++ [e]).Nodup := by
            have hens : e ∉ sel := by
              intro hc
              refine hananew ?_
              exact List.mem_filterMap.mpr ⟨e, hc, hma⟩
            simp only [List.nodup_append, List.nodup_singleton]
            exact ⟨h3, trivial, by
              intro x hx hmem
              rcases List.mem_singleton.mp hmem with rfl
              exact hens hx⟩
          exact ih (sel ++ [e]) (a :: used) h1' h2' h3'

theorem secondPassGo_append (need : Nat) :
    ∀ (l sel : List RepoEntry),
    ∃ ex, secondPassGo need l sel = sel ++ ex ∧ ∀ e ∈ ex, e ∈ l := by
  intro l
  induction l with
  | nil => intro sel; exact ⟨[], by simp [secondPassGo], by simp⟩
  | cons e rest ih =>
    intro sel
    by_cases hn : need ≤ sel.length
    · exact ⟨[], by simp [secondPassGo, hn], by simp⟩
    · by_cases hm : e ∈ sel
      · obtain ⟨ex, h1, h2⟩ := ih sel
        exact ⟨ex, by simpa [secondPassGo, hn, hm] using h1,
          fun x hx => List.mem_cons_of_mem _ (h2 x hx)⟩
      · obtain ⟨ex, h1, h2⟩ := ih (sel ++ [e])
        refine ⟨e :: ex, ?_, ?_⟩
        · have hstep : secondPassGo need (e :: rest) sel
              = secondPassGo need rest (sel ++ [e]) := by
            simp [secondPassGo, hn, hm]
          rw [hstep, h1, List.append_assoc, List.singleton_append]
        · intro x hx
          rcases List.mem_cons.mp hx with rfl | hx'
          · exact List.mem_cons_self _ _
          · exact List.mem_cons_of_mem _ (h2 x hx')

theorem secondPassGo_nodup (need : Nat) :
    ∀ (l sel : List RepoEntry), sel.Nodup → (secondPassGo need l sel).Nodup := by
  intro l
  induction l with
  | nil => intro sel h; simpa [secondPassGo] using h
  | cons e rest ih =>
    intro sel h
    by_cases hn : need ≤ sel.length
    · simpa [secondPassGo, hn] using h
    · by_cases hm : e ∈ sel
      · have hstep : secondPassGo need (e :: rest) sel = secondPassGo need rest sel := by
          simp [secondPassGo, hn, hm]
        rw [hstep]
        exact ih sel h
      · have hstep : secondPassGo need (e :: rest) sel
            = secondPassGo need rest (sel ++ [e]) := by
          simp [secondPassGo, hn, hm]
        rw [hstep]
        refine ih (sel ++ [e]) ?_
        simp only [List.nodup_append, List.nodup_singleton]
        exact ⟨h, trivial, by
          intro x hx hmem
          rcases List.mem_singleton.mp hmem with rfl
          exact hm hx⟩

theorem secondPassGo_mem (need : Nat) :
    ∀ (l sel : List RepoEntry), ∀ x ∈ secondPassGo need l sel, x ∈ sel ∨ x ∈ l := by
  intro l sel x hx
  obtain ⟨ex, h1, h2⟩ := secondPassGo_append need l sel
  rw [h1] at hx
  rcases List.mem_append.mp hx with hx' | hx'
  · exact Or.inl hx'
  · exact Or.inr (h2 x hx')

/-! ### Per-stratum and whole-run counting bounds for the selection loops -/

theorem count_le_of_nodup_subset {l bucket : List RepoEntry}
    (hnd : l.Nodup) (hsub : ∀ x ∈ l, x ∈ bucket) (v : RepoEntry) :
    l.count v ≤ bucket.count v := by
  by_cases hv : v ∈ l
  · exact Nat.le_trans (List.nodup_iff_count_le_one.mp hnd v)
      (List.count_pos_iff.mpr (hsub v hv))
  · rw [List.count_eq_zero.mpr hv]
    exact Nat.zero_le _

theorem stratumSelect_count (need : Nat) (shuffled bucket : List RepoEntry)
    (hperm : shuffled.Perm bucket) (used : List String) (v : RepoEntry) :
    ((secondPassGo need shuffled (firstPassGo need shuffled [] used).1).count v)
      ≤ bucket.count v := by
  have hfp := firstPassGo_authors need shuffled [] used (by simp) (by simp) (by simp)
  have hnd := secondPassGo_nodup need shuffled _ hfp.2.2
  have hmem : ∀ x ∈ secondPassGo need shuffled (firstPassGo need shuffled [] used).1,
      x ∈ bucket := by
    intro x hx
    rcases secondPassGo_mem need shuffled _ x hx with hx' | hx'
    · obtain ⟨ex, h1, h2⟩ := firstPassGo_sel_append need shuffled [] used
      rw [h1] at hx'
      simp only [List.nil_append] at hx'
      exact hperm.mem_iff.mp (h2 x hx').1
    · exact hperm.mem_iff.mp hx'
  exact count_le_of_nodup_subset hnd hmem v

theorem selectDiverse_count (buckets : List (String × List RepoEntry))
    (alloc : List (String × Nat)) :
    ∀ (order : List String) (st : DiverseState) (v : RepoEntry),
    ((selectDiverse buckets alloc order st).selected.count v)
      ≤ st.selected.count v + ((order.map (buildLookup buckets)).flatten).count v := by
  intro order
  induction order with
  | nil => intro st v; simp [selectDiverse]
  | cons s rest ih =>
    intro st v
    simp only [selectDiverse]
    split
    · refine Nat.le_trans (ih st v) ?_
      simp only [List.map_cons, List.flatten_cons, List.count_append]
      omega
    · refine Nat.le_trans (ih _ v) ?_
      simp only [List.count_append, List.map_cons, List.flatten_cons]
      have hstr := stratumSelect_count (lookupAlloc alloc s)
        (shuffle st.rng (buildLookup buckets s)).1 (buildLookup buckets s)
        (shuffle_perm _ _) st.used v
      omega

theorem selectPlain_count :
    ∀ (bs : List (String × List RepoEntry)) (alloc : List (String × Nat)) (rng : Nat)
      (v : RepoEntry),
    ((selectPlain bs alloc rng).1.count v) ≤ (bucketsJoin bs).count v := by
  intro bs
  induction bs with
  | nil => intro alloc rng v; simp [selectPlain, bucketsJoin]
  | cons p rest ih =>
    intro alloc rng v
    obtain ⟨s, bucket⟩ := p
    simp only [selectPlain]
    split
    · refine Nat.le_trans (ih alloc rng v) ?_
      simp only [bucketsJoin, List.map_cons, List.flatten_cons, List.count_append]
      omega
    · simp only [List.count_append, bucketsJoin, List.map_cons, List.flatten_cons]
      have h1 : ((sample rng bucket (min (lookupAlloc alloc s) bucket.length)).1.count v)
          ≤ bucket.count v :=
        (sample_subperm _ _ _).count_le v
      have h2 := ih alloc (sample rng bucket (min (lookupAlloc alloc s) bucket.length)).2 v
      simp only [bucketsJoin] at h2
      omega

theorem buildLookup_head (k : String) (b : List RepoEntry)
    (rest : List (String × List RepoEntry)) : buildLookup ((k, b) :: rest) k = b := by
  simp [buildLookup, List.find?]

theorem buildLookup_cons_ne {k x : String} (hne : x ≠ k) (b : List RepoEntry)
    (rest : List (String × List RepoEntry)) :
    buildLookup ((k, b) :: rest) x = buildLookup rest x := by
  have h : ¬ ((k == x) = true) := fun h => hne (eq_of_beq h).symm
  simp [buildLookup, List.find?, h]

theorem keys_map_buildLookup :
    ∀ (bs : List (String × List RepoEntry)), ((bs.map (·.1)).Nodup) →
    (bs.map (·.1)).map (buildLookup bs) = bs.map (·.2) := by
  intro bs
  induction bs with
  | nil => intro _; rfl
  | cons p rest ih =>
    intro h
    obtain ⟨k, b⟩ := p
    simp only [List.map_cons, List.nodup_cons] at h
    simp only [List.map_cons]
    congr 1
    · exact buildLookup_head k b rest
    · have hcongr : ∀ x ∈ rest.map (·.1),
          buildLookup ((k, b) :: rest) x = buildLookup rest x := by
        intro x hx
        refine buildLookup_cons_ne ?_ b rest
        intro hxk
        exact h.1 (hxk ▸ hx)
      rw [List.map_congr_left hcongr]
      exact ih h.2

theorem orderJoin_perm (bs : List (String × List RepoEntry)) (hnd : (bs.map (·.1)).Nodup)
    {order : List String} (hperm : order.Perm (bs.map (·.1))) :
    ((order.map (buildLookup bs)).flatten).Perm (bucketsJoin bs) := by
  have h1 : (order.map (buildLookup bs)).Perm ((bs.map (·.1)).map (buildLookup bs)) :=
    hperm.map _
  have h2 := h1.flatten
  rw [keys_map_buildLookup bs hnd] at h2
  exact h2

/-! ### The global trim / top-up -/

theorem filter_length_split (l : List RepoEntry) (p : RepoEntry → Bool) :
    (l.filter p).length + (l.filter (fun e => !(p e))).length = l.length := by
  induction l with
  | nil => rfl
  | cons e rest ih =>
    by_cases h : p e <;> simp [List.filter_cons, h] <;> omega

theorem contains_iff_mem {l : List String} {a : String} : l.contains a = true ↔ a ∈ l := by
  simp [List.contains]

/-- The trim / top-up restores the exact target size and keeps entry ids
pairwise distinct, provided the pre-selection is a sub-multiset of the
population, the population's ids are distinct, and the target does not exceed
the population. -/
theorem reconcile_spec (entries selected : List RepoEntry) (target rng : Nat)
    (hsub : ∀ v, selected.count v ≤ entries.count v)
    (hids : (entries.map RepoEntry.entry_id).Nodup)
    (htn : target ≤ entries.length) :
    (reconcile entries selected target rng).1.length = target ∧
    (((reconcile entries selected target rng).1.map RepoEntry.entry_id).Nodup) := by
  have hsp : selected <+~ entries :=
    List.subperm_ext_iff.mpr (fun x _ => hsub x)
  have hsel_ids : (selected.map RepoEntry.entry_id).Nodup :=
    subperm_nodup (subperm_map _ hsp) hids
  have hsellen : selected.length ≤ entries.length := hsp.length_le
  unfold reconcile
  by_cases hgt : target < selected.length
  · rw [if_pos hgt]
    constructor
    · rw [sample_length]
      omega
    · have hsp2 : (sample rng selected target).1 <+~ entries :=
        (sample_subperm _ _ _).trans hsp
      exact subperm_nodup (subperm_map _ hsp2) hids
  · rw [if_neg hgt]
    by_cases hlt : selected.length < target
    · rw [if_pos hlt]
      dsimp only
      have hflen := filter_length_split entries
        (fun e => (selected.map RepoEntry.entry_id).contains e.entry_id)
      have hposlen : (entries.filter
          (fun e => (selected.map RepoEntry.entry_id).contains e.entry_id)).length
            ≤ selected.length := by
        set F := entries.filter
          (fun e => (selected.map RepoEntry.entry_id).contains e.entry_id) with hF
        have hFsub : F <+ entries := List.filter_sublist entries
        have hFidsnd : (F.map RepoEntry.entry_id).Nodup :=
          (hFsub.map RepoEntry.entry_id).nodup hids
        have hFmem : ∀ x ∈ F.map RepoEntry.entry_id,
            x ∈ (selected.map RepoEntry.entry_id).dedup := by
          intro x hx
          obtain ⟨e, he, rfl⟩ := List.mem_map.mp hx
          rw [hF, List.mem_filter] at he
          exact List.mem_dedup.mpr (contains_iff_mem.mp he.2)
        have hsubperm : F.map RepoEntry.entry_id <+~ (selected.map RepoEntry.entry_id).dedup :=
          List.Nodup.subperm hFidsnd hFmem
        have h1 : (F.map RepoEntry.entry_id).length
            ≤ ((selected.map RepoEntry.entry_id).dedup).length := hsubperm.length_le
        have h2 : ((selected.map RepoEntry.entry_id).dedup).length
            ≤ (selected.map RepoEntry.entry_id).length :=
          (List.dedup_sublist _).length_le
        have h3 : (F.map RepoEntry.entry_id).length = F.length := List.length_map _ _
        have h4 : (selected.map RepoEntry.entry_id).length = selected.length :=
          List.length_map _ _
        omega
      have hpoollen : target - selected.length ≤ (entries.filter
          (fun e => !((selected.map RepoEntry.entry_id).contains e.entry_id))).length := by
        omega
      set pool := entries.filter
        (fun e => !((selected.map RepoEntry.entry_id).contains e.entry_id)) with hpool
      have hk : min (target - selected.length) pool.length = target - selected.length :=
        Nat.min_eq_left hpoollen
      rw [hk, if_pos (by omega)]
      have hextra_len : ((sample rng pool (target - selected.length)).1).length
          = target - selected.length := by
        rw [sample_length]
        omega
      constructor
      · simp only [List.length_append, hextra_len]
        omega
      · rw [List.map_append]
        have hpool_sl : pool <+ entries := List.filter_sublist entries
        have hpool_ids : (pool.map RepoEntry.entry_id).Nodup :=
          (hpool_sl.map RepoEntry.entry_id).nodup hids
        have hextra_sp : (sample rng pool (target - selected.length)).1 <+~ pool :=
          sample_subperm _ _ _
        have hextra_ids : (((sample rng pool (target - selected.length)).1).map
            RepoEntry.entry_id).Nodup :=
          subperm_nodup (subperm_map _ hextra_sp) hpool_ids
        refine List.Nodup.append hsel_ids hextra_ids ?_
        intro x hxsel hxe
        obtain ⟨e, he, rfl⟩ := List.mem_map.mp hxe
        have hepool : e ∈ pool := hextra_sp.subset he
        rw [hpool, List.mem_filter] at hepool
        have : ¬ ((selected.map RepoEntry.entry_id).contains e.entry_id = true) := by
          simpa using hepool.2
        exact this (contains_iff_mem.mpr hxsel)
    · rw [if_neg hlt]
      refine ⟨?_, hsel_ids⟩
      show selected.length = target
      omega

/-! ### Exact-count specifications of the two pipelines -/

theorem stratifiedBody_spec (entries : List RepoEntry) (target seed : Nat)
    (hids : (entries.map RepoEntry.entry_id).Nodup) (htn : target ≤ entries.length) :
    (stratifiedBody entries target seed).length = target ∧
    ((stratifiedBody entries target seed).map RepoEntry.entry_id).Nodup := by
  unfold stratifiedBody
  dsimp only
  apply reconcile_spec _ _ _ _ ?_ hids htn
  intro v
  refine Nat.le_trans (selectPlain_count _ _ _ v) ?_
  exact Nat.le_of_eq ((buildBuckets_join_perm entries).count_eq v)

theorem diverseBody_sample_spec (entries : List RepoEntry) (target seed : Nat)
    (hids : (entries.map RepoEntry.entry_id).Nodup) (htn : target ≤ entries.length) :
    (diverseBody entries target seed).1.length = target ∧
    ((diverseBody entries target seed).1.map RepoEntry.entry_id).Nodup := by
  unfold diverseBody
  dsimp only
  apply reconcile_spec _ _ _ _ ?_ hids htn
  intro v
  have h1 := selectDiverse_count (buildBuckets entries)
    (adjustAlloc (systemsSorted (buildBuckets entries))
      (initialAlloc (buildBuckets entries) entries.length target) target)
    (systemsSorted (buildBuckets entries)) ⟨[], [], [], seed⟩ v
  have h2 : (((systemsSorted (buildBuckets entries)).map
      (buildLookup (buildBuckets entries))).flatten).count v
        = (bucketsJoin (buildBuckets entries)).count v :=
    (orderJoin_perm _ (buildBuckets_keys_nodup entries) (systemsSorted_perm _)).count_eq v
  have h3 := (buildBuckets_join_perm entries).count_eq v
  simp only [List.count_nil] at h1
  omega

/-- Claim C1: for every population of entries with pairwise-distinct entry ids
and every target ≥ 1, whenever `stratified_sample` /
`main_author_diverse_stratified_sample` returns a sample, it contains exactly
`min(target, n)` entries and its entry ids are pairwise distinct. -/
theorem claim_C1 (entries : List RepoEntry) (target_size : Int) (seed : Nat)
    (hids : (entries.map RepoEntry.entry_id).Nodup) (h1 : 1 ≤ target_size) :
    (∀ r, stratified_sample entries target_size seed = .ok r →
      r.sample.length = min target_size.toNat entries.length ∧
      (r.sample.map RepoEntry.entry_id).Nodup) ∧
    (∀ r, main_author_diverse_stratified_sample entries target_size seed = .ok r →
      r.sample.length = min target_size.toNat entries.length ∧
      (r.sample.map RepoEntry.entry_id).Nodup) := by
  constructor
  · intro r hr
    unfold stratified_sample at hr
    rw [if_neg (by omega)] at hr
    by_cases hn : entries.length = 0
    · rw [if_pos hn] at hr
      cases hr
    · rw [if_neg hn] at hr
      cases hr
      exact stratifiedBody_spec entries _ seed hids (Nat.min_le_right _ _)
  · intro r hr
    unfold main_author_diverse_stratified_sample at hr
    rw [if_neg (by omega)] at hr
    by_cases hn : entries.length = 0
    · rw [if_pos hn] at hr
      cases hr
    · rw [if_neg hn] at hr
      cases hr
      exact diverseBody_sample_spec entries _ seed hids (Nat.min_le_right _ _)

/-- Claim C3: `stratified_sample` raises exactly when the target is
non-positive (`InvalidTarget`) or the population is empty (`EmptyPopulation`);
an oversized target does not raise — the run equals a run with the target
clamped to the population size, and only the warning flag differs. -/
theorem claim_C3 (entries : List RepoEntry) (target_size : Int) (seed : Nat) :
    ((∃ err, stratified_sample entries target_size seed = .error err)
        ↔ (target_size ≤ 0 ∨ entries = [])) ∧
    (target_size ≤ 0 → stratified_sample entries target_size seed = .error .invalidTarget) ∧
    (0 < target_size → entries = [] →
      stratified_sample entries target_size seed = .error .emptyPopulation) ∧
    (0 < target_size → entries ≠ [] → (entries.length : Int) < target_size →
      stratified_sample entries target_size seed
          = .ok ⟨stratifiedBody entries entries.length seed, true⟩ ∧
      stratified_sample entries (entries.length : Int) seed
          = .ok ⟨stratifiedBody entries entries.length seed, false⟩) := by
  have hlen0 : entries.length = 0 ↔ entries = [] := List.length_eq_zero
  refine ⟨⟨?_, ?_⟩, ?_, ?_, ?_⟩
  · rintro ⟨err, herr⟩
    by_contra hc
    push_neg at hc
    obtain ⟨ht, he⟩ := hc
    unfold stratified_sample at herr
    rw [if_neg (by omega), if_neg (fun h => he (hlen0.mp h))] at herr
    cases herr
  · rintro (ht | he)
    · exact ⟨.invalidTarget, by unfold stratified_sample; rw [if_pos ht]⟩
    · by_cases ht : target_size ≤ 0
      · exact ⟨.invalidTarget, by unfold stratified_sample; rw [if_pos ht]⟩
      · refine ⟨.emptyPopulation, ?_⟩
        unfold stratified_sample
        rw [if_neg ht, if_pos (hlen0.mpr he)]
  · intro ht
    unfold stratified_sample
    rw [if_pos ht]
  · intro ht he
    unfold stratified_sample
    rw [if_neg (by omega), if_pos (hlen0.mpr he)]
  · intro ht he hgt
    have hne : ¬ (entries.length = 0) := fun h => he (hlen0.mp h)
    have hmin1 : min target_size.toNat entries.length = entries.length := by omega
    have hmin2 : min (entries.length : Int).toNat entries.length = entries.length := by omega
    constructor
    · unfold stratified_sample
      rw [if_neg (by omega), if_neg hne, hmin1]
      have hw : decide ((entries.length : Int) < target_size) = true := by
        simpa using hgt
      rw [hw]
    · unfold stratified_sample
      rw [if_neg (by omega), if_neg hne, hmin2]
      have hw : decide ((entries.length : Int) < (entries.length : Int)) = false := by
        simp
      rw [hw]

/-! ### The diversity-first pass: global author uniqueness -/

theorem selectDiverse_phase1 (buckets : List (String × List RepoEntry))
    (alloc : List (String × Nat)) :
    ∀ (order : List String) (st : DiverseState),
    ((st.phase1.filterMap RepoEntry.main_author).Nodup) →
    (∀ x ∈ st.phase1.filterMap RepoEntry.main_author, x ∈ st.used) →
    (∀ e ∈ st.phase1, e.main_author ≠ none) →
    (((selectDiverse buckets alloc order st).phase1.filterMap RepoEntry.main_author).Nodup) ∧
    (∀ x ∈ (selectDiverse buckets alloc order st).phase1.filterMap RepoEntry.main_author,
      x ∈ (selectDiverse buckets alloc order st).used) ∧
    (∀ e ∈ (selectDiverse buckets alloc order st).phase1, e.main_author ≠ none) := by
  intro order
  induction order with
  | nil =>
    intro st h1 h2 h3
    exact ⟨h1, h2, h3⟩
  | cons s rest ih =>
    intro st h1 h2 h3
    simp only [selectDiverse]
    split
    · exact ih st h1 h2 h3
    · have hfp := firstPassGo_authors (lookupAlloc alloc s)
        (shuffle st.rng (buildLookup buckets s)).1 [] st.used
        (by simp) (by simp) (by simp)
      obtain ⟨ex, hex1, hex2⟩ := firstPassGo_sel_append (lookupAlloc alloc s)
        (shuffle st.rng (buildLookup buckets s)).1 [] st.used
      simp only [List.nil_append] at hex1
      apply ih
      · rw [List.filterMap_append]
        refine List.Nodup.append h1 hfp.1 ?_
        intro x hx1 hx2
        have hxu : x ∈ st.used := h2 x hx1
        have := firstPassGo_new_not_used (lookupAlloc alloc s)
          (shuffle st.rng (buildLookup buckets s)).1 [] st.used x hx2 hxu
        simpa using this
      · intro x hx
        rw [List.filterMap_append] at hx
        rcases List.mem_append.mp hx with hx' | hx'
        · exact firstPassGo_used_mono _ _ _ _ x (h2 x hx')
        · exact hfp.2.1 x hx'
      · intro e he
        rcases List.mem_append.mp he with he' | he'
        · exact h3 e he'
        · rw [hex1] at he'
          exact (hex2 e he').2

/-- Claim C7: within one sampling run, across all strata, the diversity-first
first pass selects at most one entry per distinct non-absent `main_author`
(the selected authors are pairwise distinct), and entries with absent
`main_author` are never selected in the first pass. -/
theorem claim_C7 (entries : List RepoEntry) (target_size : Int) (seed : Nat) :
    ∀ r, main_author_diverse_stratified_sample entries target_size seed = .ok r →
      (∀ e ∈ r.phase1, e.main_author ≠ none) ∧
      ((r.phase1.filterMap RepoEntry.main_author).Nodup) := by
  intro r hr
  unfold main_author_diverse_stratified_sample at hr
  by_cases h0 : target_size ≤ 0
  · rw [if_pos h0] at hr
    cases hr
  · rw [if_neg h0] at hr
    by_cases hn : entries.length = 0
    · rw [if_pos hn] at hr
      cases hr
    · rw [if_neg hn] at hr
      cases hr
      unfold diverseBody
      dsimp only
      have := selectDiverse_phase1 (buildBuckets entries)
        (adjustAlloc (systemsSorted (buildBuckets entries))
          (initialAlloc (buildBuckets entries) entries.length
            (min target_size.toNat entries.length))
          (min target_size.toNat entries.length))
        (systemsSorted (buildBuckets entries)) ⟨[], [], [], seed⟩
        (by simp) (by simp) (by simp)
      exact ⟨this.2.2, this.1⟩

/-- Claim C1, witness: the six-entry population with target 4 and seed 0. -/
theorem claim_C1_witness :
    ((exDiverse.map RepoEntry.entry_id).Nodup ∧ (1 : Int) ≤ 4) ∧
    ((SampleResult.mk [mkE "p1" "S1" (some "x"), mkE "p2" "S1" (some "x"),
        mkE "r" "S2" (some "y"), mkE "s" "S3" (some "y")] false).sample.length
          = min (4 : Int).toNat exDiverse.length ∧
      (((SampleResult.mk [mkE "p1" "S1" (some "x"), mkE "p2" "S1" (some "x"),
        mkE "r" "S2" (some "y"), mkE "s" "S3" (some "y")] false).sample.map
          RepoEntry.entry_id).Nodup)) :=
  ⟨⟨by decide, by decide⟩,
    (claim_C1 exDiverse 4 0 (by decide) (by decide)).1
      (SampleResult.mk [mkE "p1" "S1" (some "x"), mkE "p2" "S1" (some "x"),
        mkE "r" "S2" (some "y"), mkE "s" "S3" (some "y")] false) (by rfl)⟩

/-- Claim C3, witness: the oversized-target clamp at a concrete population. -/
theorem claim_C3_witness :
    ((0 : Int) < 5 ∧ exThreeSingl ≠ [] ∧ ((exThreeSingl.length : Int) < 5)) ∧
    (stratified_sample exThreeSingl 5 7
        = .ok ⟨stratifiedBody exThreeSingl exThreeSingl.length 7, true⟩ ∧
      stratified_sample exThreeSingl (exThreeSingl.length : Int) 7
        = .ok ⟨stratifiedBody exThreeSingl exThreeSingl.length 7, false⟩) :=
  ⟨⟨by decide, by decide, by decide⟩,
    (claim_C3 exThreeSingl 5 7).2.2.2 (by decide) (by decide) (by decide)⟩

/-- Claim C7, witness: the spec's example scenario — three entries sharing one
author, target 3 — phase 1 selects exactly one entry, the final sample still
has all three entries, and the theorem's conclusions hold at this run. -/
theorem claim_C7_witness :
    ((DiverseResult.mk [mkE "2" "m" (some "A"), mkE "3" "m" (some "A"),
        mkE "1" "m" (some "A")] [mkE "2" "m" (some "A")] false).phase1.length ≤ 1 ∧
      (DiverseResult.mk [mkE "2" "m" (some "A"), mkE "3" "m" (some "A"),
        mkE "1" "m" (some "A")] [mkE "2" "m" (some "A")] false).sample.length = 3) ∧
    ((∀ e ∈ (DiverseResult.mk [mkE "2" "m" (some "A"), mkE "3" "m" (some "A"),
        mkE "1" "m" (some "A")] [mkE "2" "m" (some "A")] false).phase1,
        e.main_author ≠ none) ∧
      (((DiverseResult.mk [mkE "2" "m" (some "A"), mkE "3" "m" (some "A"),
        mkE "1" "m" (some "A")] [mkE "2" "m" (some "A")] false).phase1.filterMap
          RepoEntry.main_author).Nodup)) :=
  ⟨⟨by decide, by decide⟩,
    claim_C7 exOneAuthor 3 5
      (DiverseResult.mk [mkE "2" "m" (some "A"), mkE "3" "m" (some "A"),
        mkE "1" "m" (some "A")] [mkE "2" "m" (some "A")] false) (by rfl)⟩

/-- Claim C8, counterexample: the six-entry population `exDiverse` has a
stratum with duplicate diversity keys, yet at target 2 and seed 6 the
diversity-preferring run's sample has 1 distinct non-absent author while the
pure-random run's sample has 2 — the diversity-first phase steered the
selection so that the global trim kept two same-author entries. -/
theorem claim_C8_counterexample :
    ¬ (((buildLookup (buildBuckets exDiverse) "S1").filterMap
        RepoEntry.main_author).Nodup) ∧
    main_author_diverse_stratified_sample exDiverse 2 6
      = .ok ⟨(diverseBody exDiverse 2 6).1, (diverseBody exDiverse 2 6).2, false⟩ ∧
    pure_random_stratified_sample exDiverse 2 6
      = .ok ⟨pureBody exDiverse 2 6, [], false⟩ ∧
    (authorsOf (diverseBody exDiverse 2 6).1).card = 1 ∧
    (authorsOf (pureBody exDiverse 2 6)).card = 2 ∧
    ¬ (2 ≤ (1 : Nat)) :=
  ⟨by decide, by rfl, by rfl, by rfl, by rfl, by decide⟩

/-! ### Diversity monotonicity before the global trim / top-up

The two per-stratum selections (diversity-first and pure random) are compared
in lockstep over the same shuffled bucket: every author the pure selection
picks is in `used_authors` once the diversity-first pass is done, because the
first pass examines every position the pure selection can reach before filling
its quota. -/

theorem lockstep (need : Nat) :
    ∀ (l selA selB : List RepoEntry) (used : List String),
    selA.length ≤ selB.length →
    (∀ a ∈ selB.filterMap RepoEntry.main_author, a ∈ used) →
    ∀ a ∈ (secondPassGo need l selB).filterMap RepoEntry.main_author,
      a ∈ (firstPassGo need l selA used).2 := by
  intro l
  induction l with
  | nil =>
    intro selA selB used hlen hinv a ha
    simp only [secondPassGo] at ha
    simp only [firstPassGo]
    exact hinv a ha
  | cons e rest ih =>
    intro selA selB used hlen hinv a ha
    by_cases hnA : need ≤ selA.length
    · have hnB : need ≤ selB.length := Nat.le_trans hnA hlen
      simp only [secondPassGo, if_pos hnB] at ha
      simp only [firstPassGo, if_pos hnA]
      exact hinv a ha
    · by_cases hnB : need ≤ selB.length
      · simp only [secondPassGo, if_pos hnB] at ha
        exact firstPassGo_used_mono need (e :: rest) selA used a (hinv a ha)
      · cases hma : e.main_author with
        | none =>
          have hstepA : firstPassGo need (e :: rest) selA used
              = firstPassGo need rest selA used := by
            simp [firstPassGo, hnA, hma]
          rw [hstepA]
          by_cases hmB : e ∈ selB
          · have hstepB : secondPassGo need (e :: rest) selB
                = secondPassGo need rest selB := by
              simp [secondPassGo, hnB, hmB]
            rw [hstepB] at ha
            exact ih selA selB used hlen hinv a ha
          · have hstepB : secondPassGo need (e :: rest) selB
                = secondPassGo need rest (selB ++ [e]) := by
              simp [secondPassGo, hnB, hmB]
            rw [hstepB] at ha
            refine ih selA (selB ++ [e]) used (by simp; omega) ?_ a ha
            intro x hx
            rw [List.filterMap_append] at hx
            rcases List.mem_append.mp hx with hx' | hx'
            · exact hinv x hx'
            · simp [List.filterMap_cons, hma] at hx'
        | some c =>
          by_cases hcu : c ∈ used
          · have hstepA : firstPassGo need (e :: rest) selA used
                = firstPassGo need rest selA used := by
              simp [firstPassGo, hnA, hma, hcu]
            rw [hstepA]
            by_cases hmB : e ∈ selB
            · have hstepB : secondPassGo need (e :: rest) selB
                  = secondPassGo need rest selB := by
                simp [secondPassGo, hnB, hmB]
              rw [hstepB] at ha
              exact ih selA selB used hlen hinv a ha
            · have hstepB : secondPassGo need (e :: rest) selB
                  = secondPassGo need rest (selB ++ [e]) := by
                simp [secondPassGo, hnB, hmB]
              rw [hstepB] at ha
              refine ih selA (selB ++ [e]) used (by simp; omega) ?_ a ha
              intro x hx
              rw [List.filterMap_append] at hx
              rcases List.mem_append.mp hx with hx' | hx'
              · exact hinv x hx'
              · simp only [List.filterMap_cons, hma, List.filterMap_nil] at hx'
                rcases List.mem_singleton.mp hx' with rfl
                exact hcu
          · have hstepA : firstPassGo need (e :: rest) selA used
                = firstPassGo need rest (selA ++ [e]) (c :: used) := by
              simp [firstPassGo, hnA, hma, hcu]
            rw [hstepA]
            have hmB : e ∉ selB := by
              intro hc
              exact hcu (hinv c (List.mem_filterMap.mpr ⟨e, hc, hma⟩))
            have hstepB : secondPassGo need (e :: rest) selB
                = secondPassGo need rest (selB ++ [e]) := by
              simp [secondPassGo, hnB, hmB]
            rw [hstepB] at ha
            refine ih (selA ++ [e]) (selB ++ [e]) (c :: used) (by simp; omega) ?_ a ha
            intro x hx
            rw [List.filterMap_append] at hx
            rcases List.mem_append.mp hx with hx' | hx'
            · exact List.mem_cons_of_mem _ (hinv x hx')
            · simp only [List.filterMap_cons, hma, List.filterMap_nil] at hx'
              rcases List.mem_singleton.mp hx' with rfl
              exact List.mem_cons_self _ _

theorem selectPure_le_selectDiverse (buckets : List (String × List RepoEntry))
    (alloc : List (String × Nat)) :
    ∀ (order : List String) (stA : DiverseState) (stB : List RepoEntry × Nat),
    stA.rng = stB.2 →
    (∀ a ∈ stB.1.filterMap RepoEntry.main_author, a ∈ stA.used) →
    (∀ a ∈ stA.used, a ∈ stA.selected.filterMap RepoEntry.main_author) →
    ∀ a ∈ (selectPure buckets alloc order stB).1.filterMap RepoEntry.main_author,
      a ∈ (selectDiverse buckets alloc order stA).selected.filterMap
        RepoEntry.main_author := by
  intro order
  induction order with
  | nil =>
    intro stA stB h0 h1 h2 a ha
    simp only [selectPure] at ha
    simp only [selectDiverse]
    exact h2 a (h1 a ha)
  | cons s rest ih =>
    intro stA stB h0 h1 h2 a ha
    simp only [selectPure] at ha
    simp only [selectDiverse]
    by_cases hc : lookupAlloc alloc s = 0 ∨ ((buildLookup buckets s).isEmpty = true)
    · rw [if_pos hc] at ha ⊢
      exact ih stA stB h0 h1 h2 a ha
    · rw [if_neg hc] at ha ⊢
      rw [h0]
      refine ih _ _ rfl ?_ ?_ a ha
      · intro x hx
        rw [List.filterMap_append] at hx
        rcases List.mem_append.mp hx with hx' | hx'
        · exact firstPassGo_used_mono (lookupAlloc alloc s)
            (shuffle stB.2 (buildLookup buckets s)).1 [] stA.used x (h1 x hx')
        · exact lockstep (lookupAlloc alloc s) (shuffle stB.2 (buildLookup buckets s)).1
            [] [] stA.used (Nat.le_refl 0) (by simp) x hx'
      · intro x hx
        rw [List.filterMap_append]
        rcases firstPassGo_used_sub (lookupAlloc alloc s)
            (shuffle stB.2 (buildLookup buckets s)).1 [] stA.used x hx with hx' | ⟨e, he, hme⟩
        · exact List.mem_append_left _ (h2 x hx')
        · refine List.mem_append_right _ ?_
          obtain ⟨ex, hex1, _⟩ := secondPassGo_append (lookupAlloc alloc s)
            (shuffle stB.2 (buildLookup buckets s)).1
            (firstPassGo (lookupAlloc alloc s)
              (shuffle stB.2 (buildLookup buckets s)).1 [] stA.used).1
          refine List.mem_filterMap.mpr ⟨e, ?_, hme⟩
          rw [hex1]
          exact List.mem_append_left _ he

/-- Claim C8 (amended): for every population containing a stratum with
duplicate non-absent diversity keys, and every target and seed, the number of
distinct non-absent `main_author` values among the per-stratum selections
*before the global trim / top-up* of the diversity-preferring algorithm is ≥
that of the same algorithm with the diversity-first phase removed.  (The global
trim can destroy this relation — see the counterexample.) -/
theorem claim_C8_amended (entries : List RepoEntry) (target_size : Int) (seed : Nat)
    (hdup : ∃ p ∈ buildBuckets entries, ¬ ((p.2.filterMap RepoEntry.main_author).Nodup)) :
    (authorsOf (pureSelection entries target_size seed)).card
      ≤ (authorsOf (diverseSelection entries target_size seed)).card := by
  unfold pureSelection diverseSelection
  dsimp only
  apply Finset.card_le_card
  intro a ha
  rw [authorsOf, List.mem_toFinset] at ha ⊢
  exact selectPure_le_selectDiverse _ _ _ ⟨[], [], [], seed⟩ ([], seed) rfl
    (by simp) (by simp) a ha

/-- Claim C8 (amended), witness: the six-entry population (stratum `S1` has
three entries sharing author `x`), target 2, seed 6. -/
theorem claim_C8_witness :
    (∃ p ∈ buildBuckets exDiverse, ¬ ((p.2.filterMap RepoEntry.main_author).Nodup)) ∧
    (authorsOf (pureSelection exDiverse 2 6)).card
      ≤ (authorsOf (diverseSelection exDiverse 2 6)).card :=
  ⟨by decide, claim_C8_amended exDiverse 2 6 (by decide)⟩

end ScriptLib
